import Mathlib

/-!
Verification of the open-addressing hash table in `src/basic_hash_table.c`
(`zsebastian/structures`).

The table is shallowly embedded with `Nat` keys and values: the repository's
table is generic over caller-supplied policies, and its own policies
(`hash_short`/`compare_short`/`assign_short`, ...) give plain value semantics
with an equality comparator, which is what `Nat` keys/values with the table's
`hash` function as a field model.  `hash_t` arithmetic is modelled on `Nat`;
the probe index `(hash + i*i) % reserved` is taken without the (immaterial
here) `size_t` wraparound.  The C `reserved` field always equals the length
of the allocated regions, so capacity is `slots.length`.  Out-of-memory is
out of scope (`assert(np)` aborts).  The `assert(!reset)` in
`basic_hash_table_set_inner` is modelled as failure (`none`), matching the
abort.  The unbounded `while(1)` retry loop of `set` and the
rehash/reinsert mutual recursion are modelled with explicit fuel through the
single structurally recursive dispatcher `run`; `none` means the fuel ran
out (or an assert fired), and termination claims are stated as the existence
of sufficient fuel.
-/

namespace BHT

/-- Slot status flags, from `elem_flags` in `basic_hash_table.h`
(`HASH_ELEM_EMPTY`, `HASH_ELEM_USED`, `HASH_ELEM_DELETED`). -/
inductive Flag where
  | empty
  | used
  | deleted
deriving DecidableEq, Repr

/-- One slot: co-indexed key cell, value cell and status flag.  The C code
keeps three parallel regions; a list of records is the same data. -/
structure Slot where
  flag : Flag
  key : Nat
  val : Nat
deriving DecidableEq, Repr

instance : Inhabited Slot := ⟨⟨.empty, 0, 0⟩⟩

/-- The table state from `struct basic_hash_table`: the hash policy, the
parallel storage (as a list of slots) and the `load` counter.  `reserved`
is the length of `slots`. -/
structure Table where
  hash : Nat → Nat
  slots : List Slot
  load : Nat

/-- Capacity, the C `reserved` field (always the allocated region length). -/
def Table.reserved (t : Table) : Nat := t.slots.length

/-- The quadratic probe index `(hash + i*i) % reserved`. -/
def probeIdx (h cap i : Nat) : Nat := (h + i * i) % cap

/-- The probe scan of `basic_hash_table_set_inner`'s `for` loop
(`src/basic_hash_table.c:302-325`): starting at probe number `i` with
`fuel` probes left (callers use `i = 0`, `fuel = reserved`), return the
first terminating slot index, paired with `true` when the slot was
Empty/Deleted (fresh placement, return 1) and `false` on a key match
(overwrite, return 0).  `none` means the whole scan fell through. -/
def setProbe (slots : List Slot) (h k : Nat) : Nat → Nat → Option (Nat × Bool)
  | _, 0 => none
  | i, fuel+1 =>
    match slots[probeIdx h slots.length i]? with
    | none => none
    | some s =>
      if s.flag = .empty ∨ s.flag = .deleted then some (probeIdx h slots.length i, true)
      else if s.key = k then some (probeIdx h slots.length i, false)
      else setProbe slots h k (i+1) fuel

/-- The seed capacities, `static int primes[]` in `basic_hash_table.c:221`. -/
def primes : List Nat := [13, 17, 29, 47, 61, 97, 157, 251, 349]

/-- `next_prime_size` (`basic_hash_table.c:223-239`): the first seed prime
when below the list, the next larger seed prime while inside it, and
`old*2 - old/2` once at or past the largest seed prime.  The C downward
scan over `primes` is unrolled. -/
def nextPrimeSize (old : Nat) : Nat :=
  if old < 13 then 13
  else if 349 ≤ old then old * 2 - old / 2
  else if 251 ≤ old then 349
  else if 157 ≤ old then 251
  else if 97 ≤ old then 157
  else if 61 ≤ old then 97
  else if 47 ≤ old then 61
  else if 29 ≤ old then 47
  else if 17 ≤ old then 29
  else if 13 ≤ old then 17
  else old * 2 - old / 2

/-- Fresh placement into slot `idx` (flags become Used, load incremented;
`assign_key`/`assign_value` called with old = none store the new key and
value). -/
def installAt (t : Table) (idx k v : Nat) : Table :=
  { t with slots := t.slots.set idx ⟨.used, k, v⟩, load := t.load + 1 }

/-- Overwrite of the value at slot `idx` on a key match (the key cell is
never reassigned, the flag is rewritten to Used, load unchanged). -/
def updateAt (t : Table) (idx v : Nat) : Table :=
  { t with slots := t.slots.set idx { t.slots.getD idx default with flag := .used, val := v } }

/-- Call descriptors for the mutually recursive `basic_hash_table_rehash` /
reinsert loop / `basic_hash_table_set_inner` / `while(1)` retry loop,
dispatched by one fuel-indexed function so that the model stays
structurally recursive. -/
inductive Call where
  | rehash (t : Table) (newsize : Nat)
  | reinsert (t : Table) (rest : List Slot)
  | setInner (t : Table) (k v : Nat) (reset : Bool)
  | setLoop (t : Table) (h k v : Nat)

/-- One dispatcher for the four mutually recursive pieces of
`basic_hash_table.c`:

* `.rehash t newsize` — `basic_hash_table_rehash` (lines 192-219): allocate
  `newsize` Empty slots, reset `load` to 0, then walk the old slots;
* `.reinsert t rest` — the reinsertion `for` loop of the rehash: every old
  slot whose flag has the `HASH_ELEM_USED` bit (i.e. is Used — tombstones
  are dropped) is re-added through `basic_hash_table_set_inner(..., 1)`;
* `.setInner t k v reset` — `basic_hash_table_set_inner` (lines 284-331):
  growth check `load > reserved / 2` first (with `assert(!reset)`,
  modelled as `none`), then the probe loop;
* `.setLoop t h k v` — the `while(1)` retry loop: one full probe scan; on
  fall-through, rehash to `next_prime_size(reserved)` and retry.

Each recursive call consumes one unit of fuel; `none` is fuel exhaustion
(or a failed assert).  The `Bool` is the return value of `set` (1 for a
fresh insertion); for `.rehash`/`.reinsert` it is meaningless. -/
def run : Nat → Call → Option (Table × Bool)
  | 0, _ => none
  | fuel+1, c =>
    match c with
    | .rehash t newsize =>
        run fuel (.reinsert { hash := t.hash, slots := List.replicate newsize default, load := 0 } t.slots)
    | .reinsert t [] => some (t, true)
    | .reinsert t (s :: rest) =>
        if s.flag = .used then
          match run fuel (.setInner t s.key s.val true) with
          | none => none
          | some (t', _) => run fuel (.reinsert t' rest)
        else run fuel (.reinsert t rest)
    | .setInner t k v reset =>
        if t.load > t.reserved / 2 then
          if reset then none
          else
            match run fuel (.rehash t (nextPrimeSize t.reserved)) with
            | none => none
            | some (t1, _) => run fuel (.setLoop t1 (t.hash k) k v)
        else run fuel (.setLoop t (t.hash k) k v)
    | .setLoop t h k v =>
        match setProbe t.slots h k 0 t.reserved with
        | some (idx, true) => some (installAt t idx k v, true)
        | some (idx, false) => some (updateAt t idx v, false)
        | none =>
            match run fuel (.rehash t (nextPrimeSize t.reserved)) with
            | none => none
            | some (t1, _) => run fuel (.setLoop t1 h k v)

/-- `basic_hash_table_rehash`, as a fuelled function. -/
def basic_hash_table_rehash (fuel : Nat) (t : Table) (newsize : Nat) : Option Table :=
  (run fuel (.rehash t newsize)).map Prod.fst

/-- `basic_hash_table_set_inner`, as a fuelled function. -/
def basic_hash_table_set_inner (fuel : Nat) (t : Table) (k v : Nat) (reset : Bool) :
    Option (Table × Bool) :=
  run fuel (.setInner t k v reset)

/-- `basic_hash_table_set` (line 333): `set_inner` with `reset = 0`. -/
def basic_hash_table_set (fuel : Nat) (t : Table) (k v : Nat) : Option (Table × Bool) :=
  basic_hash_table_set_inner fuel t k v false

/-- `basic_hash_table_new` (lines 241-256): a table of `primes[0] = 13`
Empty slots with `load = 0`.  (The C constructor reaches this state by
calling `rehash(table, 0, primes[0])` on an empty table.) -/
def basic_hash_table_new (hash : Nat → Nat) : Table :=
  { hash := hash, slots := List.replicate 13 default, load := 0 }

/-- The probe scan of `basic_hash_table_get_inner` (lines 338-368): return
the slot index of a Used slot whose key matches, stop with `none` at the
first Empty slot, and continue past Deleted (and non-matching Used)
slots; `none` also after `reserved` fruitless probes. -/
def getProbe (slots : List Slot) (h k : Nat) : Nat → Nat → Option Nat
  | _, 0 => none
  | i, fuel+1 =>
    match slots[probeIdx h slots.length i]? with
    | none => none
    | some s =>
      if s.flag = .used ∧ s.key = k then some (probeIdx h slots.length i)
      else if s.flag = .empty then none
      else getProbe slots h k (i+1) fuel

/-- `basic_hash_table_get_inner`: the found slot's index (the C function
reports it through `index_out` and returns 1), or `none` (returns 0). -/
def basic_hash_table_get_inner (t : Table) (k : Nat) : Option Nat :=
  getProbe t.slots (t.hash k) k 0 t.reserved

/-- `basic_hash_table_get` (line 370): on a hit the stored value is
assign-copied into the out buffer; `some v` models return 1 with `v` in
the buffer, `none` models return 0 with the buffer untouched. -/
def basic_hash_table_get (t : Table) (k : Nat) : Option Nat :=
  (basic_hash_table_get_inner t k).map (fun idx => (t.slots.getD idx default).val)

/-- The outcome of `basic_hash_table_remove`: its return value, the value
copied to `out` (`none` when nothing was copied), the table afterwards,
and how many release callbacks (assign with `new_elem = NULL`) ran. -/
structure RemoveResult where
  found : Bool
  out : Option Nat
  table : Table
  releaseCalls : Nat

/-- `basic_hash_table_remove` (lines 376-390): `get_inner` finds the slot
and copies the value out; on a hit the flag becomes Deleted and
`assign_key`/`assign_value` release the stored elements (`new = NULL`,
two release calls; the stored bytes themselves are not cleared, and
`load` is not decremented).  On a miss nothing happens. -/
def basic_hash_table_remove (t : Table) (k : Nat) : RemoveResult :=
  match basic_hash_table_get_inner t k with
  | none => ⟨false, none, t, 0⟩
  | some idx =>
      ⟨true, some (t.slots.getD idx default).val,
        { t with slots := t.slots.set idx { t.slots.getD idx default with flag := .deleted } }, 2⟩

/-- `basic_hash_table_begin` (line 392). -/
def basic_hash_table_begin (_ : Table) : Nat := 0

/-- `basic_hash_table_end` (line 397). -/
def basic_hash_table_end (t : Table) : Nat := t.reserved

/-- The `while` scan of `basic_hash_table_next` (lines 406-410): advance
`iter` past non-Used slots.  `fuel` bounds the scan (callers pass enough
to cover the remaining slots). -/
def nextUsedIdx (slots : List Slot) : Nat → Nat → Nat
  | iter, 0 => iter
  | iter, fuel+1 =>
    if iter < slots.length ∧ (slots.getD iter default).flag ≠ .used then
      nextUsedIdx slots (iter+1) fuel
    else iter

/-- `basic_hash_table_next` (lines 402-426): scan forward from `iter` to
the next Used slot; past the end, return `end` and touch nothing, else
assign-copy that slot's key and value out and return the successor
position. -/
def basic_hash_table_next (t : Table) (iter : Nat) : Nat × Option (Nat × Nat) :=
  let j := nextUsedIdx t.slots iter (t.reserved - iter)
  if j ≥ t.reserved then (t.reserved, none)
  else (j + 1, some ((t.slots.getD j default).key, (t.slots.getD j default).val))

/-- Driving `begin`/`next` to `end`: the key/value pairs yielded in order.
`fuel` bounds the number of `next` calls; `iterAll` passes `reserved`,
which always suffices. -/
def iterFrom (t : Table) : Nat → Nat → List (Nat × Nat)
  | _, 0 => []
  | iter, fuel+1 =>
    match basic_hash_table_next t iter with
    | (_, none) => []
    | (next, some kv) => kv :: iterFrom t next fuel

/-- A full `begin`-to-`end` iteration pass. -/
def iterAll (t : Table) : List (Nat × Nat) :=
  iterFrom t (basic_hash_table_begin t) t.reserved

/-- The key/value pair an Used (Occupied) slot holds. -/
def slotPair (s : Slot) : Option (Nat × Nat) :=
  if s.flag = .used then some (s.key, s.val) else none

/-- The pairs held by Occupied slots, in physical slot order. -/
def usedPairs (t : Table) : List (Nat × Nat) := t.slots.filterMap slotPair

/-- The keys held by Occupied slots, in physical slot order. -/
def usedKeys (t : Table) : List Nat := (usedPairs t).map Prod.fst

/-- The number of Occupied slots. -/
def usedCount (t : Table) : Nat := (usedPairs t).length

/-- How many Occupied slots hold the key `k`. -/
def usedKeyCount (t : Table) (k : Nat) : Nat :=
  t.slots.countP (fun s => s.flag == .used && s.key == k)

/-- No slot is a tombstone. -/
def NoTomb (t : Table) : Prop := ∀ s ∈ t.slots, s.flag ≠ .deleted

/-- Every Occupied slot's key is reachable through `get` with that slot's
value. -/
def Reach (t : Table) : Prop :=
  ∀ p ∈ usedPairs t, basic_hash_table_get t p.1 = some p.2

/-- The Occupied slots hold pairwise distinct keys. -/
def NodupKeys (t : Table) : Prop := (usedKeys t).Nodup

/-- A mutation of the table through its public interface, used to state
properties over interleavings of operations. -/
inductive TableOp where
  | opSet (k v : Nat)
  | opRemove (k : Nat)
deriving DecidableEq, Repr

/-- The key an operation addresses. -/
def TableOp.key : TableOp → Nat
  | .opSet k _ => k
  | .opRemove k => k

/-- Run one operation.  A `set` without enough fuel is a no-op (fuel is a
model artifact; every concrete use passes enough). -/
def applyOp (fuel : Nat) (t : Table) : TableOp → Table
  | .opSet k v =>
      match basic_hash_table_set fuel t k v with
      | none => t
      | some (t', _) => t'
  | .opRemove k => (basic_hash_table_remove t k).table

/-- Run a sequence of operations left to right. -/
def applyOps (fuel : Nat) (t : Table) (ops : List TableOp) : Table :=
  ops.foldl (applyOp fuel) t

/-- Insert a list of key/value pairs in order through `set`; `none` if any
`set` runs out of fuel. -/
def insertAll (fuel : Nat) : Table → List (Nat × Nat) → Option Table
  | t, [] => some t
  | t, (k, v) :: rest =>
      match basic_hash_table_set fuel t k v with
      | none => none
      | some (t', _) => insertAll fuel t' rest

/-! ## Basic facts about the probe scans -/

/-- Flag trichotomy: a flag that is neither Empty nor Deleted is Used. -/
theorem flag_used_of_ne (f : Flag) (he : f ≠ .empty) (hd : f ≠ .deleted) : f = .used := by
  cases f <;> simp_all

/-- Where `setProbe` stops: the slot it returns exists, is Empty/Deleted
when the `Bool` is `true` (fresh placement) and a Used key match when it
is `false`. -/
theorem setProbe_spec (slots : List Slot) (h k : Nat) :
    ∀ fuel i idx b, setProbe slots h k i fuel = some (idx, b) →
      ∃ s, slots[idx]? = some s ∧
        (b = true → s.flag = .empty ∨ s.flag = .deleted) ∧
        (b = false → s.flag = .used ∧ s.key = k) := by
  intro fuel
  induction fuel with
  | zero => intro i idx b hp; simp [setProbe] at hp
  | succ fuel ih =>
    intro i idx b hp
    rw [setProbe] at hp
    cases hs : slots[probeIdx h slots.length i]? with
    | none => rw [hs] at hp; simp at hp
    | some s =>
      rw [hs] at hp
      by_cases hed : s.flag = .empty ∨ s.flag = .deleted
      · simp only [if_pos hed] at hp
        obtain ⟨hidx, hb⟩ := Prod.mk.injEq .. ▸ Option.some.injEq .. ▸ hp
        exact ⟨s, hidx ▸ hs, fun _ => hed, fun hf => by simp [hf] at hb⟩
      · by_cases hk : s.key = k
        · simp only [if_neg hed, if_pos hk] at hp
          obtain ⟨hidx, hb⟩ := Prod.mk.injEq .. ▸ Option.some.injEq .. ▸ hp
          refine ⟨s, hidx ▸ hs, fun ht => by simp [ht] at hb, fun _ => ⟨?_, hk⟩⟩
          push_neg at hed
          exact flag_used_of_ne s.flag hed.1 hed.2
        · simp only [if_neg hed, if_neg hk] at hp
          exact ih _ _ _ hp

/-- After a fresh placement at the slot `setProbe` chose, `getProbe` finds
that slot: every earlier probe was a non-matching Used slot and is
untouched, and the placed slot now matches. -/
theorem getProbe_after_install (slots : List Slot) (h k v : Nat) :
    ∀ fuel i idx, setProbe slots h k i fuel = some (idx, true) →
      getProbe (slots.set idx ⟨.used, k, v⟩) h k i fuel = some idx := by
  intro fuel
  induction fuel with
  | zero => intro i idx hp; simp [setProbe] at hp
  | succ fuel ih =>
    intro i idx hp
    rw [setProbe] at hp
    rw [getProbe, List.length_set]
    cases hs : slots[probeIdx h slots.length i]? with
    | none => rw [hs] at hp; simp at hp
    | some s =>
      rw [hs] at hp
      have hlt := (List.getElem?_eq_some.mp hs).1
      by_cases hed : s.flag = .empty ∨ s.flag = .deleted
      · simp only [if_pos hed] at hp
        obtain ⟨hidx, -⟩ := Prod.mk.injEq .. ▸ Option.some.injEq .. ▸ hp
        subst hidx
        rw [List.getElem?_set_self hlt]
        simp
      · by_cases hk : s.key = k
        · simp only [if_neg hed, if_pos hk] at hp
          exact absurd (Prod.mk.injEq .. ▸ Option.some.injEq .. ▸ hp).2 (by simp)
        · simp only [if_neg hed, if_neg hk] at hp
          obtain ⟨s', hs', hfresh, -⟩ := setProbe_spec slots h k fuel (i+1) idx true hp
          have hne : idx ≠ probeIdx h slots.length i := by
            intro he
            rw [he, hs] at hs'
            cases hs'
            exact hed (hfresh rfl)
          rw [List.getElem?_set_ne hne, hs]
          have : ¬(s.flag = .used ∧ s.key = k) := fun hc => hk hc.2
          simp only [if_neg this]
          have hnotempty : ¬s.flag = Flag.empty := fun hc => hed (Or.inl hc)
          simp only [if_neg hnotempty]
          exact ih _ _ hp

/-- After a value overwrite at the Used slot `setProbe` matched, `getProbe`
finds that slot. -/
theorem getProbe_after_update (slots : List Slot) (h k v : Nat) :
    ∀ fuel i idx, setProbe slots h k i fuel = some (idx, false) →
      getProbe (slots.set idx { slots.getD idx default with flag := .used, val := v }) h k i fuel
        = some idx := by
  intro fuel
  induction fuel with
  | zero => intro i idx hp; simp [setProbe] at hp
  | succ fuel ih =>
    intro i idx hp
    rw [setProbe] at hp
    rw [getProbe, List.length_set]
    cases hs : slots[probeIdx h slots.length i]? with
    | none => rw [hs] at hp; simp at hp
    | some s =>
      rw [hs] at hp
      have hlt := (List.getElem?_eq_some.mp hs).1
      by_cases hed : s.flag = .empty ∨ s.flag = .deleted
      · simp only [if_pos hed] at hp
        exact absurd (Prod.mk.injEq .. ▸ Option.some.injEq .. ▸ hp).2 (by simp)
      · by_cases hk : s.key = k
        · simp only [if_neg hed, if_pos hk] at hp
          obtain ⟨hidx, -⟩ := Prod.mk.injEq .. ▸ Option.some.injEq .. ▸ hp
          subst hidx
          rw [List.getElem?_set_self hlt]
          have hgd : slots.getD (probeIdx h slots.length i) default = s := by
            simp [List.getD, hs]
          rw [hgd]
          simp [hk]
        · simp only [if_neg hed, if_neg hk] at hp
          obtain ⟨s', hs', -, hmatch⟩ := setProbe_spec slots h k fuel (i+1) idx false hp
          have hne : idx ≠ probeIdx h slots.length i := by
            intro he
            rw [he, hs] at hs'
            cases hs'
            exact hk (hmatch rfl).2
          rw [List.getElem?_set_ne hne, hs]
          have : ¬(s.flag = .used ∧ s.key = k) := fun hc => hk hc.2
          simp only [if_neg this]
          have hnotempty : ¬s.flag = Flag.empty := fun hc => hed (Or.inl hc)
          simp only [if_neg hnotempty]
          exact ih _ _ hp

/-- The table argument of a call descriptor. -/
def Call.table : Call → Table
  | .rehash t _ => t
  | .reinsert t _ => t
  | .setInner t _ _ _ => t
  | .setLoop t _ _ _ => t

/-- No piece of the set/rehash machinery changes the hash policy. -/
theorem run_hash : ∀ fuel c t' b, run fuel c = some (t', b) → t'.hash = c.table.hash := by
  intro fuel
  induction fuel with
  | zero => intro c t' b hr; simp [run] at hr
  | succ fuel ih =>
    intro c t' b hr
    match c with
    | .rehash t newsize =>
      rw [run] at hr
      have hx := ih _ _ _ hr
      exact hx
    | .reinsert t [] =>
      rw [run] at hr
      obtain ⟨h1, -⟩ := Prod.mk.injEq .. ▸ Option.some.injEq .. ▸ hr
      rw [← h1]; rfl
    | .reinsert t (s :: rest) =>
      rw [run] at hr
      by_cases hf : s.flag = .used
      · simp only [if_pos hf] at hr
        cases hsi : run fuel (.setInner t s.key s.val true) with
        | none => rw [hsi] at hr; simp at hr
        | some p =>
          rw [hsi] at hr
          simp only at hr
          have h1 := ih _ _ _ hsi
          have h2 := ih _ _ _ hr
          exact h2.trans h1
      · simp only [if_neg hf] at hr
        have hx := ih _ _ _ hr
        exact hx
    | .setInner t k v reset =>
      rw [run] at hr
      by_cases hload : t.load > t.reserved / 2
      · simp only [if_pos hload] at hr
        cases reset with
        | true => simp at hr
        | false =>
          simp only [Bool.false_eq_true, if_false] at hr
          cases hrh : run fuel (.rehash t (nextPrimeSize t.reserved)) with
          | none => rw [hrh] at hr; simp at hr
          | some p =>
            rw [hrh] at hr
            simp only at hr
            have h1 := ih _ _ _ hrh
            have h2 := ih _ _ _ hr
            exact h2.trans h1
      · simp only [if_neg hload] at hr
        have hx := ih _ _ _ hr
        exact hx
    | .setLoop t h k v =>
      rw [run] at hr
      cases hsp : setProbe t.slots h k 0 t.reserved with
      | none =>
        rw [hsp] at hr
        simp only at hr
        cases hrh : run fuel (.rehash t (nextPrimeSize t.reserved)) with
        | none => rw [hrh] at hr; simp at hr
        | some p =>
          rw [hrh] at hr
          simp only at hr
          have h1 := ih _ _ _ hrh
          have h2 := ih _ _ _ hr
          exact h2.trans h1
      | some r =>
        obtain ⟨idx, b'⟩ := r
        rw [hsp] at hr
        cases b' with
        | true =>
          simp only at hr
          obtain ⟨h1, -⟩ := Prod.mk.injEq .. ▸ Option.some.injEq .. ▸ hr
          rw [← h1]; rfl
        | false =>
          simp only at hr
          obtain ⟨h1, -⟩ := Prod.mk.injEq .. ▸ Option.some.injEq .. ▸ hr
          rw [← h1]; rfl

/-- Through any number of retry rehashes, a successful pass of the `set`
probe loop leaves the written key reachable by `get` with the written
value. -/
theorem setLoop_get : ∀ fuel t h k v t' b, h = t.hash k →
    run fuel (.setLoop t h k v) = some (t', b) →
    basic_hash_table_get t' k = some v := by
  intro fuel
  induction fuel with
  | zero => intro t h k v t' b hh hr; simp [run] at hr
  | succ fuel ih =>
    intro t h k v t' b hh hr
    rw [run] at hr
    cases hsp : setProbe t.slots h k 0 t.reserved with
    | none =>
      rw [hsp] at hr
      simp only at hr
      cases hrh : run fuel (.rehash t (nextPrimeSize t.reserved)) with
      | none => rw [hrh] at hr; simp at hr
      | some p =>
        rw [hrh] at hr
        simp only at hr
        have hhash : p.1.hash = t.hash := run_hash fuel _ _ _ hrh
        exact ih p.1 h k v t' b (by rw [hh, ← hhash]) hr
    | some r =>
      obtain ⟨idx, bb⟩ := r
      rw [hsp] at hr
      obtain ⟨s, hs, hfresh, hmatch⟩ := setProbe_spec t.slots h k _ _ _ _ hsp
      have hlt := (List.getElem?_eq_some.mp hs).1
      cases bb with
      | true =>
        simp only at hr
        obtain ⟨ht', -⟩ := Prod.mk.injEq .. ▸ Option.some.injEq .. ▸ hr
        subst ht'
        have hget := getProbe_after_install t.slots h k v t.reserved 0 idx hsp
        unfold basic_hash_table_get basic_hash_table_get_inner installAt
        simp only [Table.reserved, List.length_set]
        rw [hh] at hget
        simp only [Table.reserved] at hget
        rw [hget]
        simp [List.getD, List.getElem?_set_self hlt]
      | false =>
        simp only at hr
        obtain ⟨ht', -⟩ := Prod.mk.injEq .. ▸ Option.some.injEq .. ▸ hr
        subst ht'
        have hget := getProbe_after_update t.slots h k v t.reserved 0 idx hsp
        unfold basic_hash_table_get basic_hash_table_get_inner updateAt
        simp only [Table.reserved, List.length_set]
        rw [hh] at hget
        simp only [Table.reserved] at hget
        rw [hget]
        simp [List.getD, List.getElem?_set_self hlt]

/-- C1: for every table and every key `k` and value `v`, a `get(k)`
performed immediately after a completed `set(k, v)` (no intervening
`remove(k)`) returns true and yields `v` in the out buffer. -/
theorem set_then_get (fuel : Nat) (t : Table) (k v : Nat) (t' : Table) (b : Bool)
    (hset : basic_hash_table_set fuel t k v = some (t', b)) :
    basic_hash_table_get t' k = some v := by
  unfold basic_hash_table_set basic_hash_table_set_inner at hset
  cases fuel with
  | zero => simp [run] at hset
  | succ fuel =>
    rw [run] at hset
    by_cases hload : t.load > t.reserved / 2
    · simp only [if_pos hload, Bool.false_eq_true, if_false] at hset
      cases hrh : run fuel (.rehash t (nextPrimeSize t.reserved)) with
      | none => rw [hrh] at hset; simp at hset
      | some p =>
        rw [hrh] at hset
        simp only at hset
        have hhash : p.1.hash = t.hash := run_hash fuel _ _ _ hrh
        exact setLoop_get fuel p.1 (t.hash k) k v t' b (by rw [← hhash]) hset
    · simp only [if_neg hload] at hset
      exact setLoop_get fuel t (t.hash k) k v t' b rfl hset

/-- The table obtained by one concrete `set` on a fresh table (identity
hash), for the witness below. -/
def c1Table : Table := applyOp 8 (basic_hash_table_new (fun n => n)) (.opSet 4 44)

/-- Witness for C1 at a concrete input. -/
theorem set_then_get_witness : basic_hash_table_get c1Table 4 = some 44 :=
  set_then_get 8 (basic_hash_table_new (fun n => n)) 4 44 c1Table true rfl

/-- C7: capacity growth is strictly monotonic — `next_prime_size` always
returns something strictly larger than its argument; the result is drawn
from the fixed ascending prime list while the current capacity is below
its largest entry 349, and equals `old*2 - old/2` (integer arithmetic)
once at or past it.  Capacity never shrinks. -/
theorem next_prime_size_spec (old : Nat) :
    old < nextPrimeSize old ∧
      (old < 349 → nextPrimeSize old ∈ primes) ∧
      (349 ≤ old → nextPrimeSize old = old * 2 - old / 2) := by
  by_cases h1 : old < 13
  · have he : nextPrimeSize old = 13 := by unfold nextPrimeSize; rw [if_pos h1]
    rw [he]
    exact ⟨by omega, fun _ => by simp [primes], fun hge => absurd hge (by omega)⟩
  · by_cases h2 : 349 ≤ old
    · have he : nextPrimeSize old = old * 2 - old / 2 := by
        unfold nextPrimeSize; rw [if_neg h1, if_pos h2]
      rw [he]
      exact ⟨by omega, fun hlt => absurd hlt (by omega), fun _ => rfl⟩
    · by_cases h3 : 251 ≤ old
      · have he : nextPrimeSize old = 349 := by
          unfold nextPrimeSize; rw [if_neg h1, if_neg h2, if_pos h3]
        rw [he]
        exact ⟨by omega, fun _ => by simp [primes], fun hge => absurd hge (by omega)⟩
      · by_cases h4 : 157 ≤ old
        · have he : nextPrimeSize old = 251 := by
            unfold nextPrimeSize; rw [if_neg h1, if_neg h2, if_neg h3, if_pos h4]
          rw [he]
          exact ⟨by omega, fun _ => by simp [primes], fun hge => absurd hge (by omega)⟩
        · by_cases h5 : 97 ≤ old
          · have he : nextPrimeSize old = 157 := by
              unfold nextPrimeSize; rw [if_neg h1, if_neg h2, if_neg h3, if_neg h4, if_pos h5]
            rw [he]
            exact ⟨by omega, fun _ => by simp [primes], fun hge => absurd hge (by omega)⟩
          · by_cases h6 : 61 ≤ old
            · have he : nextPrimeSize old = 97 := by
                unfold nextPrimeSize; rw [if_neg h1, if_neg h2, if_neg h3, if_neg h4, if_neg h5, if_pos h6]
              rw [he]
              exact ⟨by omega, fun _ => by simp [primes], fun hge => absurd hge (by omega)⟩
            · by_cases h7 : 47 ≤ old
              · have he : nextPrimeSize old = 61 := by
                  unfold nextPrimeSize; rw [if_neg h1, if_neg h2, if_neg h3, if_neg h4, if_neg h5, if_neg h6, if_pos h7]
                rw [he]
                exact ⟨by omega, fun _ => by simp [primes], fun hge => absurd hge (by omega)⟩
              · by_cases h8 : 29 ≤ old
                · have he : nextPrimeSize old = 47 := by
                    unfold nextPrimeSize; rw [if_neg h1, if_neg h2, if_neg h3, if_neg h4, if_neg h5, if_neg h6, if_neg h7, if_pos h8]
                  rw [he]
                  exact ⟨by omega, fun _ => by simp [primes], fun hge => absurd hge (by omega)⟩
                · by_cases h9 : 17 ≤ old
                  · have he : nextPrimeSize old = 29 := by
                      unfold nextPrimeSize; rw [if_neg h1, if_neg h2, if_neg h3, if_neg h4, if_neg h5, if_neg h6, if_neg h7, if_neg h8, if_pos h9]
                    rw [he]
                    exact ⟨by omega, fun _ => by simp [primes], fun hge => absurd hge (by omega)⟩
                  · by_cases h10 : 13 ≤ old
                    · have he : nextPrimeSize old = 17 := by
                        unfold nextPrimeSize; rw [if_neg h1, if_neg h2, if_neg h3, if_neg h4, if_neg h5, if_neg h6, if_neg h7, if_neg h8, if_neg h9, if_pos h10]
                      rw [he]
                      exact ⟨by omega, fun _ => by simp [primes], fun hge => absurd hge (by omega)⟩
                    · exact absurd h10 (by omega)

/-- Witness for C7 at concrete inputs. -/
theorem next_prime_size_spec_witness :
    100 < nextPrimeSize 100 ∧ nextPrimeSize 100 ∈ primes ∧
      nextPrimeSize 350 = 350 * 2 - 350 / 2 :=
  ⟨(next_prime_size_spec 100).1, (next_prime_size_spec 100).2.1 (by decide),
    (next_prime_size_spec 350).2.2 (by decide)⟩

/-- C10: `remove` is atomic on a miss — when it returns 0, the table is
completely unchanged (slots, load and capacity included), the out buffer
is untouched and no release callback ran. -/
theorem remove_miss_noop (t : Table) (k : Nat)
    (h : (basic_hash_table_remove t k).found = false) :
    (basic_hash_table_remove t k).table = t ∧
      (basic_hash_table_remove t k).out = none ∧
      (basic_hash_table_remove t k).releaseCalls = 0 := by
  unfold basic_hash_table_remove at *
  cases hg : basic_hash_table_get_inner t k with
  | none => exact ⟨rfl, rfl, rfl⟩
  | some idx => rw [hg] at h; simp at h

/-- Witness for C10 at a concrete input. -/
theorem remove_miss_noop_witness :
    (basic_hash_table_remove (basic_hash_table_new (fun n => n)) 5).table
        = basic_hash_table_new (fun n => n) ∧
      (basic_hash_table_remove (basic_hash_table_new (fun n => n)) 5).out = none ∧
      (basic_hash_table_remove (basic_hash_table_new (fun n => n)) 5).releaseCalls = 0 :=
  remove_miss_noop (basic_hash_table_new (fun n => n)) 5 rfl

/-- The slot the `m`-th probe of the quadratic sequence looks at. -/
def probeSlot (slots : List Slot) (h m : Nat) : Slot :=
  slots.getD (probeIdx h slots.length m) default

/-- In a nonempty slot list the probed cell exists. -/
theorem probeSlot_get (slots : List Slot) (h m : Nat) (hcap : 0 < slots.length) :
    slots[probeIdx h slots.length m]? = some (probeSlot slots h m) := by
  have hlt : probeIdx h slots.length m < slots.length := Nat.mod_lt _ hcap
  rw [List.getElem?_eq_getElem hlt]
  unfold probeSlot
  rw [List.getD_eq_getElem?_getD, List.getElem?_eq_getElem hlt]
  rfl

/-- The `get` scan reports not-found as soon as it reaches an Empty slot:
if probe `j` is Empty and no probe before `j` is a Used match, the scan
from `i ≤ j` returns `none` (even if a match sits beyond `j`). -/
theorem getProbe_stops_at_empty (slots : List Slot) (h k : Nat) (hcap : 0 < slots.length) :
    ∀ fuel i j, i ≤ j → j < i + fuel →
      (probeSlot slots h j).flag = .empty →
      (∀ m, i ≤ m → m < j →
        ¬((probeSlot slots h m).flag = .used ∧ (probeSlot slots h m).key = k)) →
      getProbe slots h k i fuel = none := by
  intro fuel
  induction fuel with
  | zero => intro i j hij hj he hm; omega
  | succ fuel ih =>
    intro i j hij hj he hm
    rw [getProbe, probeSlot_get slots h i hcap]
    rcases Nat.eq_or_lt_of_le hij with heq | hlt
    · subst heq
      have : ¬((probeSlot slots h i).flag = .used ∧ (probeSlot slots h i).key = k) := by
        rw [he]; simp
      simp only [if_neg this, if_pos he]
    · have hmi := hm i le_rfl hlt
      simp only [if_neg hmi]
      by_cases he0 : (probeSlot slots h i).flag = .empty
      · simp only [if_pos he0]
      · simp only [if_neg he0]
        exact ih (i+1) j hlt (by omega) he (fun m hm1 hm2 => hm m (by omega) hm2)

/-- The `get` scan skips tombstones and non-matching Used slots and stops
at the first Used match, returning that slot's index. -/
theorem getProbe_finds_match (slots : List Slot) (h k : Nat) (hcap : 0 < slots.length) :
    ∀ fuel i j, i ≤ j → j < i + fuel →
      (probeSlot slots h j).flag = .used → (probeSlot slots h j).key = k →
      (∀ m, i ≤ m → m < j → (probeSlot slots h m).flag = .deleted ∨
        ((probeSlot slots h m).flag = .used ∧ (probeSlot slots h m).key ≠ k)) →
      getProbe slots h k i fuel = some (probeIdx h slots.length j) := by
  intro fuel
  induction fuel with
  | zero => intro i j hij hj hu hk hm; omega
  | succ fuel ih =>
    intro i j hij hj hu hk hm
    rw [getProbe, probeSlot_get slots h i hcap]
    rcases Nat.eq_or_lt_of_le hij with heq | hlt
    · subst heq
      simp only [if_pos (And.intro hu hk)]
    · have hmi := hm i le_rfl hlt
      have hnot : ¬((probeSlot slots h i).flag = .used ∧ (probeSlot slots h i).key = k) := by
        rcases hmi with hd | ⟨-, hne⟩
        · rw [hd]; simp
        · exact fun hc => hne hc.2
      have hne : (probeSlot slots h i).flag ≠ .empty := by
        rcases hmi with hd | ⟨hu', -⟩
        · rw [hd]; simp
        · rw [hu']; simp
      simp only [if_neg hnot, if_neg hne]
      exact ih (i+1) j hlt (by omega) hu hk (fun m hm1 hm2 => hm m (by omega) hm2)

/-- If no probe in the scanned window is a Used match, the `get` scan
reports not-found (whether it stops at an Empty slot or exhausts the
window). -/
theorem getProbe_none_of_no_match (slots : List Slot) (h k : Nat) (hcap : 0 < slots.length) :
    ∀ fuel i,
      (∀ m, i ≤ m → m < i + fuel →
        ¬((probeSlot slots h m).flag = .used ∧ (probeSlot slots h m).key = k)) →
      getProbe slots h k i fuel = none := by
  intro fuel
  induction fuel with
  | zero => intro i hm; rw [getProbe]
  | succ fuel ih =>
    intro i hm
    rw [getProbe, probeSlot_get slots h i hcap]
    have hmi := hm i le_rfl (by omega)
    simp only [if_neg hmi]
    by_cases he0 : (probeSlot slots h i).flag = .empty
    · simp only [if_pos he0]
    · simp only [if_neg he0]
      exact ih (i+1) (fun m hm1 hm2 => hm m (by omega) (by omega))

/-- The `set` probe scan installs at probe `j` when probes before `j` are
all non-matching Used slots and probe `j` is Empty or a tombstone. -/
theorem setProbe_reaches_fresh (slots : List Slot) (h k : Nat) (hcap : 0 < slots.length) :
    ∀ fuel i j, i ≤ j → j < i + fuel →
      ((probeSlot slots h j).flag = .empty ∨ (probeSlot slots h j).flag = .deleted) →
      (∀ m, i ≤ m → m < j →
        (probeSlot slots h m).flag = .used ∧ (probeSlot slots h m).key ≠ k) →
      setProbe slots h k i fuel = some (probeIdx h slots.length j, true) := by
  intro fuel
  induction fuel with
  | zero => intro i j hij hj hf hm; omega
  | succ fuel ih =>
    intro i j hij hj hf hm
    rw [setProbe, probeSlot_get slots h i hcap]
    rcases Nat.eq_or_lt_of_le hij with heq | hlt
    · subst heq
      simp only [if_pos hf]
    · obtain ⟨hu, hne⟩ := hm i le_rfl hlt
      have hnf : ¬((probeSlot slots h i).flag = .empty ∨ (probeSlot slots h i).flag = .deleted) := by
        rw [hu]; simp
      simp only [if_neg hnf, if_neg hne]
      exact ih (i+1) j hlt (by omega) hf (fun m hm1 hm2 => hm m (by omega) hm2)

/-- `getD` after `set` at the written index. -/
theorem getD_set_self (l : List Slot) (i : Nat) (a : Slot) (hi : i < l.length) :
    (l.set i a).getD i default = a := by
  rw [List.getD_eq_getElem?_getD, List.getElem?_set_self hi]
  rfl

/-- `getD` after `set` at a different index. -/
theorem getD_set_ne (l : List Slot) (i j : Nat) (a : Slot) (hne : i ≠ j) :
    (l.set i a).getD j default = l.getD j default := by
  rw [List.getD_eq_getElem?_getD, List.getElem?_set_ne hne, ← List.getD_eq_getElem?_getD]

/-- A position satisfying `p` gives a positive count. -/
theorem one_le_countP (p : Slot → Bool) (l : List Slot) (i : Nat) (hi : i < l.length)
    (hp : p (l.getD i default) = true) : 1 ≤ l.countP p := by
  rw [List.getD_eq_getElem?_getD, List.getElem?_eq_getElem hi] at hp
  exact List.countP_pos_iff.mpr ⟨l[i], List.getElem_mem hi, hp⟩

/-- Two distinct positions satisfying `p` give a count of at least two. -/
theorem two_le_countP (p : Slot → Bool) :
    ∀ (l : List Slot) i j, i < l.length → j < l.length → i ≠ j →
      p (l.getD i default) = true → p (l.getD j default) = true → 2 ≤ l.countP p := by
  intro l
  induction l with
  | nil => intro i j hi; simp at hi
  | cons hd tl ih =>
    intro i j hi hj hne hpi hpj
    match i, j with
    | 0, 0 => exact absurd rfl hne
    | 0, j+1 =>
      simp only [List.getD_cons_zero] at hpi
      simp only [List.getD_cons_succ] at hpj
      rw [List.countP_cons, if_pos hpi]
      have := one_le_countP p tl j (by simpa using hj) hpj
      omega
    | i+1, 0 =>
      simp only [List.getD_cons_zero] at hpj
      simp only [List.getD_cons_succ] at hpi
      rw [List.countP_cons, if_pos hpj]
      have := one_le_countP p tl i (by simpa using hi) hpi
      omega
    | i+1, j+1 =>
      simp only [List.getD_cons_succ] at hpi hpj
      rw [List.countP_cons]
      have := ih i j (by simpa using hi) (by simpa using hj) (by omega) hpi hpj
      omega

/-- C6: `get` probes the quadratic sequence `(h + i*i) % capacity` for
`i = 0, 1, 2, ...`: it reports not-found the first time a probed slot is
Empty (even when a match sits beyond that slot), it skips Tombstone slots
without terminating and returns the first Used match's value, and when no
Used match occurs within `capacity` probes it reports not-found. -/
theorem get_quadratic_probe_spec (t : Table) (k : Nat) (hcap : 0 < t.reserved) :
    (∀ j, j < t.reserved →
        (probeSlot t.slots (t.hash k) j).flag = .empty →
        (∀ m, m < j → ¬((probeSlot t.slots (t.hash k) m).flag = .used ∧
            (probeSlot t.slots (t.hash k) m).key = k)) →
        basic_hash_table_get t k = none) ∧
    (∀ j, j < t.reserved →
        (probeSlot t.slots (t.hash k) j).flag = .used →
        (probeSlot t.slots (t.hash k) j).key = k →
        (∀ m, m < j → (probeSlot t.slots (t.hash k) m).flag = .deleted ∨
            ((probeSlot t.slots (t.hash k) m).flag = .used ∧
              (probeSlot t.slots (t.hash k) m).key ≠ k)) →
        basic_hash_table_get t k = some (probeSlot t.slots (t.hash k) j).val) ∧
    ((∀ m, m < t.reserved → ¬((probeSlot t.slots (t.hash k) m).flag = .used ∧
          (probeSlot t.slots (t.hash k) m).key = k)) →
      basic_hash_table_get t k = none) := by
  have hcap' : 0 < t.slots.length := hcap
  refine ⟨fun j hj he hm => ?_, fun j hj hu hk hm => ?_, fun hm => ?_⟩
  · unfold basic_hash_table_get basic_hash_table_get_inner
    rw [getProbe_stops_at_empty t.slots (t.hash k) k hcap' t.reserved 0 j (Nat.zero_le j)
      (by omega) he (fun m _ hmj => hm m hmj)]
    rfl
  · unfold basic_hash_table_get basic_hash_table_get_inner
    rw [getProbe_finds_match t.slots (t.hash k) k hcap' t.reserved 0 j (Nat.zero_le j)
      (by omega) hu hk (fun m _ hmj => hm m hmj)]
    rfl
  · unfold basic_hash_table_get basic_hash_table_get_inner
    rw [getProbe_none_of_no_match t.slots (t.hash k) k hcap' t.reserved 0
      (fun m _ hmlt => hm m (by omega))]
    rfl

/-- A table holding key 2 behind a tombstone on a constant-hash probe
sequence: slot 0 Deleted, slot 1 Occupied by key 2. -/
def c6Table : Table :=
  applyOps 20 (basic_hash_table_new (fun _ => 0)) [.opSet 1 10, .opSet 2 20, .opRemove 1]

/-- Witness for C6 at a concrete input: the tombstone at probe 0 is
skipped and the match at probe 1 found. -/
theorem get_quadratic_probe_spec_witness : basic_hash_table_get c6Table 2 = some 20 :=
  (get_quadratic_probe_spec c6Table 2 (by decide)).2.1 1 (by decide) (by decide) (by decide)
    (by decide)

/-- C9: when key `k` sits in an Occupied slot at probe position `j` while
an earlier position `i < j` of its sequence holds a Tombstone and every
position before `i` is a non-matching Occupied slot, `set(k, v)` installs
a fresh entry at position `i` (assign callbacks with old = none, report a
new insertion, i.e. return 1), leaves the original Occupied slot for `k`
in place, and the table then holds two Occupied slots for the same key. -/
theorem set_duplicates_key_past_tombstone
    (fuel : Nat) (t : Table) (k v : Nat) (i j : Nat)
    (hload : ¬t.load > t.reserved / 2)
    (hij : i < j)
    (hjcap : j < t.reserved)
    (htomb : (probeSlot t.slots (t.hash k) i).flag = .deleted)
    (hocc : (probeSlot t.slots (t.hash k) j).flag = .used)
    (hkey : (probeSlot t.slots (t.hash k) j).key = k)
    (hpre : ∀ m, m < i → (probeSlot t.slots (t.hash k) m).flag = .used ∧
        (probeSlot t.slots (t.hash k) m).key ≠ k) :
    basic_hash_table_set (fuel + 2) t k v
        = some (installAt t (probeIdx (t.hash k) t.reserved i) k v, true) ∧
      probeIdx (t.hash k) t.reserved i ≠ probeIdx (t.hash k) t.reserved j ∧
      (installAt t (probeIdx (t.hash k) t.reserved i) k v).slots.getD
          (probeIdx (t.hash k) t.reserved j) default
        = t.slots.getD (probeIdx (t.hash k) t.reserved j) default ∧
      2 ≤ usedKeyCount (installAt t (probeIdx (t.hash k) t.reserved i) k v) k := by
  have hcap : 0 < t.slots.length := by
    have : (0 : Nat) ≤ j := Nat.zero_le j
    exact Nat.lt_of_le_of_lt (Nat.zero_le j) hjcap
  have hne : probeIdx (t.hash k) t.reserved i ≠ probeIdx (t.hash k) t.reserved j := by
    intro he
    unfold probeSlot at htomb hocc
    have : (Table.reserved t) = t.slots.length := rfl
    rw [this] at he
    rw [he] at htomb
    rw [htomb] at hocc
    exact absurd hocc (by simp)
  have hprobe := setProbe_reaches_fresh t.slots (t.hash k) k hcap t.reserved 0 i
    (Nat.zero_le i) (by omega) (Or.inr htomb) (fun m _ hmi => hpre m hmi)
  have hiIdx : probeIdx (t.hash k) t.slots.length i < t.slots.length := Nat.mod_lt _ hcap
  have hjIdx : probeIdx (t.hash k) t.slots.length j < t.slots.length := Nat.mod_lt _ hcap
  have hslots : (installAt t (probeIdx (t.hash k) t.reserved i) k v).slots
      = t.slots.set (probeIdx (t.hash k) t.reserved i) ⟨.used, k, v⟩ := rfl
  refine ⟨?_, hne, ?_, ?_⟩
  · unfold basic_hash_table_set basic_hash_table_set_inner
    rw [run]
    simp only [if_neg hload]
    rw [run]
    rw [hprobe]
    rfl
  · rw [hslots]
    exact getD_set_ne t.slots _ _ _ hne
  · unfold usedKeyCount
    rw [hslots]
    refine two_le_countP _ _ (probeIdx (t.hash k) t.reserved i)
      (probeIdx (t.hash k) t.reserved j)
      (by simpa [List.length_set] using hiIdx) (by simpa [List.length_set] using hjIdx) hne ?_ ?_
    · have hiIdx' : probeIdx (t.hash k) t.reserved i < t.slots.length := hiIdx
      rw [getD_set_self t.slots (probeIdx (t.hash k) t.reserved i) ⟨.used, k, v⟩ hiIdx']
      simp
    · rw [getD_set_ne t.slots _ _ _ hne]
      unfold probeSlot at hocc hkey
      simp only [Table.reserved] at *
      rw [hocc, hkey]
      simp

/-- The table reached by `set 1 10; set 2 20; remove 1; ` under a constant
hash: key 2 Occupied at probe 1 behind the tombstone at probe 0. -/
def c9Table : Table := c6Table

/-- Witness for C9 at a concrete input. -/
theorem set_duplicates_key_past_tombstone_witness :
    basic_hash_table_set 2 c9Table 2 21
        = some (installAt c9Table (probeIdx (c9Table.hash 2) c9Table.reserved 0) 2 21, true) ∧
      probeIdx (c9Table.hash 2) c9Table.reserved 0 ≠ probeIdx (c9Table.hash 2) c9Table.reserved 1 ∧
      (installAt c9Table (probeIdx (c9Table.hash 2) c9Table.reserved 0) 2 21).slots.getD
          (probeIdx (c9Table.hash 2) c9Table.reserved 1) default
        = c9Table.slots.getD (probeIdx (c9Table.hash 2) c9Table.reserved 1) default ∧
      2 ≤ usedKeyCount (installAt c9Table (probeIdx (c9Table.hash 2) c9Table.reserved 0) 2 21) 2 :=
  set_duplicates_key_past_tombstone 0 c9Table 2 21 0 1 (by decide) (by decide) (by decide)
    (by decide) (by decide) (by decide) (by decide)

/-- Some Occupied slot holds key `q`. -/
def hasUsedKey (t : Table) (q : Nat) : Prop :=
  ∃ s ∈ t.slots, s.flag = .used ∧ s.key = q

instance (t : Table) (q : Nat) : Decidable (hasUsedKey t q) := by
  unfold hasUsedKey
  infer_instance

/-- Membership in a list after `set`: the element is the written one or was
already present. -/
theorem mem_set_cases {α : Type} : ∀ (l : List α) (i : Nat) (a x : α),
    x ∈ l.set i a → x = a ∨ x ∈ l := by
  intro l
  induction l with
  | nil => intro i a x hx; simp at hx
  | cons hd tl ih =>
    intro i a x hx
    cases i with
    | zero =>
      rw [List.set_cons_zero] at hx
      rcases List.mem_cons.mp hx with h | h
      · exact Or.inl h
      · exact Or.inr (List.mem_cons_of_mem hd h)
    | succ i =>
      rw [List.set_cons_succ] at hx
      rcases List.mem_cons.mp hx with h | h
      · exact Or.inr (h ▸ List.mem_cons_self hd tl)
      · rcases ih i a x h with h' | h'
        · exact Or.inl h'
        · exact Or.inr (List.mem_cons_of_mem hd h')

/-- Where `getProbe` stops: a Used slot with the looked-up key. -/
theorem getProbe_spec (slots : List Slot) (h k : Nat) :
    ∀ fuel i idx, getProbe slots h k i fuel = some idx →
      ∃ s, slots[idx]? = some s ∧ s.flag = .used ∧ s.key = k := by
  intro fuel
  induction fuel with
  | zero => intro i idx hp; simp [getProbe] at hp
  | succ fuel ih =>
    intro i idx hp
    rw [getProbe] at hp
    cases hs : slots[probeIdx h slots.length i]? with
    | none => rw [hs] at hp; simp at hp
    | some s =>
      rw [hs] at hp
      by_cases hum : s.flag = .used ∧ s.key = k
      · simp only [if_pos hum] at hp
        obtain hidx := Option.some.injEq .. ▸ hp
        exact ⟨s, hidx ▸ hs, hum⟩
      · simp only [if_neg hum] at hp
        by_cases he : s.flag = .empty
        · simp [if_pos he] at hp
        · simp only [if_neg he] at hp
          exact ih _ _ hp

/-- A `get` miss is forced when no Occupied slot holds the key. -/
theorem get_none_of_not_hasUsedKey (t : Table) (k : Nat) (h : ¬hasUsedKey t k) :
    basic_hash_table_get t k = none := by
  unfold basic_hash_table_get basic_hash_table_get_inner
  cases hg : getProbe t.slots (t.hash k) k 0 t.reserved with
  | none => rfl
  | some idx =>
    obtain ⟨s, hs, hu, hk⟩ := getProbe_spec t.slots (t.hash k) k _ _ _ hg
    exact absurd ⟨s, List.getElem?_mem hs, hu, hk⟩ h

/-- `hasUsedKey` is a positive Occupied-key count. -/
theorem hasUsedKey_iff_count_pos (t : Table) (q : Nat) :
    hasUsedKey t q ↔ 0 < usedKeyCount t q := by
  unfold hasUsedKey usedKeyCount
  rw [List.countP_pos_iff]
  constructor
  · rintro ⟨s, hm, hu, hk⟩
    exact ⟨s, hm, by simp [hu, hk]⟩
  · rintro ⟨s, hm, hp⟩
    simp only [Bool.and_eq_true, beq_iff_eq] at hp
    exact ⟨s, hm, hp.1, hp.2⟩

/-- The keys a call may leave in Occupied slots: those already Occupied in
its table (plus, for the reinsertion walk, those of the Occupied old
slots still to be copied), and the key being set. -/
def Call.mayKeys : Call → Nat → Prop
  | .rehash t _, q => hasUsedKey t q
  | .reinsert t rest, q => hasUsedKey t q ∨ ∃ s ∈ rest, s.flag = .used ∧ s.key = q
  | .setInner t k _ _, q => hasUsedKey t q ∨ q = k
  | .setLoop t _ k _, q => hasUsedKey t q ∨ q = k

/-- Provenance of Occupied keys: no piece of the set/rehash machinery
invents a key — every Occupied key of the result was Occupied before or
is the key being set. -/
theorem run_key_provenance : ∀ fuel c t' b, run fuel c = some (t', b) →
    ∀ q, hasUsedKey t' q → Call.mayKeys c q := by
  intro fuel
  induction fuel with
  | zero => intro c t' b hr; simp [run] at hr
  | succ fuel ih =>
    intro c t' b hr q hq
    match c with
    | .rehash t newsize =>
      rw [run] at hr
      rcases ih _ _ _ hr q hq with hfresh | hold
      · obtain ⟨s, hm, hu, -⟩ := hfresh
        have := List.eq_of_mem_replicate hm
        rw [this] at hu
        exact absurd hu (by simp [default])
      · exact hold
    | .reinsert t [] =>
      rw [run] at hr
      obtain ⟨h1, -⟩ := Prod.mk.injEq .. ▸ Option.some.injEq .. ▸ hr
      exact Or.inl (h1 ▸ hq)
    | .reinsert t (s :: rest) =>
      rw [run] at hr
      by_cases hf : s.flag = .used
      · simp only [if_pos hf] at hr
        cases hsi : run fuel (.setInner t s.key s.val true) with
        | none => rw [hsi] at hr; simp at hr
        | some p =>
          rw [hsi] at hr
          simp only at hr
          rcases ih _ _ _ hr q hq with h1 | ⟨s', hm, hp⟩
          · rcases ih _ _ _ hsi q h1 with h2 | h2
            · exact Or.inl h2
            · exact Or.inr ⟨s, List.mem_cons_self s rest, hf, h2.symm⟩
          · exact Or.inr ⟨s', List.mem_cons_of_mem s hm, hp⟩
      · simp only [if_neg hf] at hr
        rcases ih _ _ _ hr q hq with h1 | ⟨s', hm, hp⟩
        · exact Or.inl h1
        · exact Or.inr ⟨s', List.mem_cons_of_mem s hm, hp⟩
    | .setInner t k v reset =>
      rw [run] at hr
      by_cases hload : t.load > t.reserved / 2
      · simp only [if_pos hload] at hr
        cases reset with
        | true => simp at hr
        | false =>
          simp only [Bool.false_eq_true, if_false] at hr
          cases hrh : run fuel (.rehash t (nextPrimeSize t.reserved)) with
          | none => rw [hrh] at hr; simp at hr
          | some p =>
            rw [hrh] at hr
            simp only at hr
            rcases ih _ _ _ hr q hq with h1 | h1
            · exact Or.inl (ih _ _ _ hrh q h1)
            · exact Or.inr h1
      · simp only [if_neg hload] at hr
        rcases ih _ _ _ hr q hq with h1 | h1
        · exact Or.inl h1
        · exact Or.inr h1
    | .setLoop t h k v =>
      rw [run] at hr
      cases hsp : setProbe t.slots h k 0 t.reserved with
      | none =>
        rw [hsp] at hr
        simp only at hr
        cases hrh : run fuel (.rehash t (nextPrimeSize t.reserved)) with
        | none => rw [hrh] at hr; simp at hr
        | some p =>
          rw [hrh] at hr
          simp only at hr
          rcases ih _ _ _ hr q hq with h1 | h1
          · exact Or.inl (ih _ _ _ hrh q h1)
          · exact Or.inr h1
      | some r =>
        obtain ⟨idx, bb⟩ := r
        rw [hsp] at hr
        obtain ⟨s, hs, hfresh, hmatch⟩ := setProbe_spec t.slots h k _ _ _ _ hsp
        cases bb with
        | true =>
          simp only at hr
          obtain ⟨ht', -⟩ := Prod.mk.injEq .. ▸ Option.some.injEq .. ▸ hr
          rw [← ht'] at hq
          obtain ⟨s', hm, hu, hk⟩ := hq
          rcases mem_set_cases _ _ _ _ hm with he | he
          · exact Or.inr (by rw [← hk, he])
          · exact Or.inl ⟨s', he, hu, hk⟩
        | false =>
          simp only at hr
          obtain ⟨ht', -⟩ := Prod.mk.injEq .. ▸ Option.some.injEq .. ▸ hr
          rw [← ht'] at hq
          obtain ⟨s', hm, hu, hk⟩ := hq
          rcases mem_set_cases _ _ _ _ hm with he | he
          · have hgd : t.slots.getD idx default = s := by
              rw [List.getD_eq_getElem?_getD, hs]
              rfl
            have : s'.key = s.key := by rw [he, hgd]
            exact Or.inr (by rw [← hk, this, (hmatch rfl).2])
          · exact Or.inl ⟨s', he, hu, hk⟩

/-- `remove` never creates an Occupied slot for an absent key. -/
theorem remove_preserves_no_key (t : Table) (k q : Nat) (h : ¬hasUsedKey t q) :
    ¬hasUsedKey (basic_hash_table_remove t k).table q := by
  unfold basic_hash_table_remove
  cases hg : basic_hash_table_get_inner t k with
  | none => exact h
  | some idx =>
    rintro ⟨s', hm, hu, hk⟩
    rcases mem_set_cases _ _ _ _ hm with he | he
    · rw [he] at hu
      exact absurd hu (by simp)
    · exact h ⟨s', he, hu, hk⟩

/-- A successful `set` of key `k'` never creates an Occupied slot for an
absent other key. -/
theorem set_preserves_no_key (fuel : Nat) (t t' : Table) (k' v : Nat) (b : Bool) (q : Nat)
    (hset : basic_hash_table_set fuel t k' v = some (t', b))
    (hne : k' ≠ q) (h : ¬hasUsedKey t q) : ¬hasUsedKey t' q := by
  intro hq
  rcases run_key_provenance fuel _ _ _ hset q hq with hq' | hq'
  · exact h hq'
  · exact hne hq'.symm

/-- When at most one Occupied slot holds `k` and `remove(k)` can reach it
(or none holds it at all), the table after `remove(k)` has no Occupied
slot for `k`. -/
theorem remove_clears_key (t : Table) (k : Nat)
    (h1 : usedKeyCount t k ≤ 1)
    (h2 : hasUsedKey t k → (basic_hash_table_remove t k).found = true) :
    ¬hasUsedKey (basic_hash_table_remove t k).table k := by
  by_cases hk : hasUsedKey t k
  · have hfound := h2 hk
    unfold basic_hash_table_remove at hfound ⊢
    cases hg : basic_hash_table_get_inner t k with
    | none => rw [hg] at hfound; simp at hfound
    | some idx =>
      obtain ⟨s, hs, hu, hkey⟩ := getProbe_spec t.slots (t.hash k) k _ _ _ hg
      have hlt := (List.getElem?_eq_some.mp hs).1
      have hgd : t.slots.getD idx default = s := by
        rw [List.getD_eq_getElem?_getD, hs]; rfl
      rw [hasUsedKey_iff_count_pos]
      unfold usedKeyCount
      simp only
      have hidx : (fun s => s.flag == Flag.used && s.key == k) t.slots[idx] = true := by
        have : t.slots[idx] = s := by
          have := List.getElem?_eq_getElem hlt
          rw [hs] at this
          exact (Option.some.injEq .. ▸ this).symm
        rw [this]
        simp [hu, hkey]
      rw [List.countP_set _ _ _ _ hlt, if_pos hidx]
      have hif : ∀ s0 : Slot, (({ s0 with flag := Flag.deleted } : Slot).flag == Flag.used &&
          ({ s0 with flag := Flag.deleted } : Slot).key == k) = false := by
        intro s0; rfl
      rw [hif (t.slots.getD idx default)]
      simp only [Bool.false_eq_true, if_false]
      have hcnt : usedKeyCount t k ≤ 1 := h1
      unfold usedKeyCount at hcnt
      omega
  · by_cases hfound : (basic_hash_table_remove t k).found = true
    · unfold basic_hash_table_remove at hfound ⊢
      cases hg : basic_hash_table_get_inner t k with
      | none => rw [hg] at hfound; simp at hfound
      | some idx =>
        obtain ⟨s, hs, hu, hkey⟩ := getProbe_spec t.slots (t.hash k) k _ _ _ hg
        exact absurd ⟨s, List.getElem?_mem hs, hu, hkey⟩ hk
    · have : (basic_hash_table_remove t k).table = t :=
        (remove_miss_noop t k (by simpa using hfound)).1
      rw [this]
      exact hk

/-- Operations addressing other keys keep `k` absent from Occupied slots. -/
theorem applyOps_preserves_no_key (fuel : Nat) (k : Nat) :
    ∀ (ops : List TableOp) (t : Table), ¬hasUsedKey t k →
      (∀ op ∈ ops, TableOp.key op ≠ k) → ¬hasUsedKey (applyOps fuel t ops) k := by
  intro ops
  induction ops with
  | nil => intro t h _; exact h
  | cons op rest ih =>
    intro t h hops
    unfold applyOps
    rw [List.foldl_cons]
    have hrest : ∀ o ∈ rest, TableOp.key o ≠ k :=
      fun o ho => hops o (List.mem_cons_of_mem op ho)
    have hstep : ¬hasUsedKey (applyOp fuel t op) k := by
      cases op with
      | opSet k' v =>
        have hne : k' ≠ k := hops (.opSet k' v) (List.mem_cons_self ..)
        cases hset : basic_hash_table_set fuel t k' v with
        | none =>
          have happ : applyOp fuel t (.opSet k' v) = t := by
            simp only [applyOp, hset]
          rw [happ]
          exact h
        | some p =>
          have happ : applyOp fuel t (.opSet k' v) = p.1 := by
            simp only [applyOp, hset]
          rw [happ]
          exact set_preserves_no_key fuel t p.1 k' v p.2 k (by rw [hset]) hne h
      | opRemove k' =>
        exact remove_preserves_no_key t k' k h
    exact ih (applyOp fuel t op) hstep hrest

/-- The duplicate-key table: under a constant hash, `set 1; set 2; remove
1; set 2` leaves key 2 in two Occupied slots (the second `set 2` reused
the tombstone at probe 0 while the original copy sits at probe 1). -/
def c2Table : Table :=
  applyOps 20 (basic_hash_table_new (fun _ => 0))
    [.opSet 1 10, .opSet 2 20, .opRemove 1, .opSet 2 21]

/-- Counterexample to C2 as stated: on the reachable table `c2Table`,
`remove 2` returns success, yet the immediately following `get 2` (no
intervening operation at all) still returns true, finding the stale
duplicate. -/
theorem remove_then_get_counterexample :
    (basic_hash_table_remove c2Table 2).found = true ∧
      basic_hash_table_get (basic_hash_table_remove c2Table 2).table 2 = some 20 := by
  constructor
  · rfl
  · rfl

/-- C2 (amended): when at most one Occupied slot holds `k` and an Occupied
`k` is reachable by `remove` — both automatic except in the duplicate-key
states of C9 — then after `remove(k)` every subsequent `get(k)` returns
false across any interleaving of operations on other keys (tombstone
creation and reuse included), until `k` is set again. -/
theorem remove_then_get_none
    (fuel : Nat) (t : Table) (k : Nat) (ops pre post : List TableOp)
    (h1 : usedKeyCount t k ≤ 1)
    (h2 : hasUsedKey t k → (basic_hash_table_remove t k).found = true)
    (hops : ∀ op ∈ ops, TableOp.key op ≠ k)
    (hsplit : ops = pre ++ post) :
    basic_hash_table_get (applyOps fuel (basic_hash_table_remove t k).table pre) k = none := by
  have h0 : ¬hasUsedKey (basic_hash_table_remove t k).table k := remove_clears_key t k h1 h2
  have hpre : ∀ op ∈ pre, TableOp.key op ≠ k := fun op hop =>
    hops op (hsplit ▸ List.mem_append_left post hop)
  exact get_none_of_not_hasUsedKey _ _ (applyOps_preserves_no_key fuel k pre _ h0 hpre)

/-- A duplicate-free two-key table for the C2 witness. -/
def c2wTable : Table :=
  applyOps 20 (basic_hash_table_new (fun _ => 0)) [.opSet 1 10, .opSet 2 20]

/-- Witness for the amended C2 at a concrete input: after removing key 2,
a set of a third key, a remove of the first key (creating a tombstone)
and an overwrite of the first key leave `get 2` still reporting
not-found. -/
theorem remove_then_get_none_witness :
    basic_hash_table_get
        (applyOps 20 (basic_hash_table_remove c2wTable 2).table
          [.opSet 3 30, .opRemove 1, .opSet 1 11]) 2 = none :=
  remove_then_get_none 20 c2wTable 2 [.opSet 3 30, .opRemove 1, .opSet 1 11]
    [.opSet 3 30, .opRemove 1, .opSet 1 11] [] (by decide) (fun _ => by decide)
    (by decide) rfl

/-! ## Multiset semantics of the slot array -/

/-- A Used slot's pair. -/
theorem slotPair_used (s : Slot) (h : s.flag = .used) : slotPair s = some (s.key, s.val) := by
  unfold slotPair
  rw [if_pos h]

/-- A non-Used slot has no pair. -/
theorem slotPair_not_used (s : Slot) (h : s.flag ≠ .used) : slotPair s = none := by
  unfold slotPair
  rw [if_neg h]

/-- The freshly allocated region carries no pairs. -/
theorem usedPairs_replicate (n : Nat) :
    (List.replicate n (default : Slot)).filterMap slotPair = [] := by
  induction n with
  | zero => rfl
  | succ n ih => rw [List.replicate_succ, List.filterMap_cons]; exact ih

/-- Writing a pair-carrying element over a pairless one inserts its pair
into the `filterMap`, up to permutation. -/
theorem filterMap_set_perm {α β : Type} (f : α → Option β) :
    ∀ (l : List α) (i : Nat) (a : α) (p : β), i < l.length →
      (∀ h : i < l.length, f l[i] = none) → f a = some p →
      List.Perm ((l.set i a).filterMap f) (p :: l.filterMap f) := by
  intro l
  induction l with
  | nil => intro i a p hi; simp at hi
  | cons hd tl ih =>
    intro i a p hi hold hnew
    cases i with
    | zero =>
      have hhd : f hd = none := by
        have h0 := hold hi
        rwa [List.getElem_cons_zero] at h0
      rw [List.set_cons_zero, List.filterMap_cons, List.filterMap_cons, hnew, hhd]
    | succ i =>
      rw [List.set_cons_succ, List.filterMap_cons, List.filterMap_cons]
      have hi' : i < tl.length := by simpa using hi
      have hold' : ∀ h : i < tl.length, f tl[i] = none := fun h => by
        have h0 := hold hi
        rwa [List.getElem_cons_succ] at h0
      cases hhd : f hd with
      | none => exact ih i a p hi' hold' hnew
      | some q =>
        exact (List.Perm.cons q (ih i a p hi' hold' hnew)).trans (List.Perm.swap p q _)

/-- Overwriting a pair-carrying element with one carrying the same first
component leaves the first components of the `filterMap` unchanged. -/
theorem filterMap_set_fst {α β γ : Type} (f : α → Option β) (g : β → γ) :
    ∀ (l : List α) (i : Nat) (a : α) (p q : β), i < l.length →
      (∀ h : i < l.length, f l[i] = some q) → f a = some p → g p = g q →
      ((l.set i a).filterMap f).map g = (l.filterMap f).map g := by
  intro l
  induction l with
  | nil => intro i a p q hi; simp at hi
  | cons hd tl ih =>
    intro i a p q hi hold hnew hg
    cases i with
    | zero =>
      have hhd : f hd = some q := by
        have h0 := hold hi
        rwa [List.getElem_cons_zero] at h0
      rw [List.set_cons_zero, List.filterMap_cons, List.filterMap_cons, hnew, hhd]
      rw [List.map_cons, List.map_cons, hg]
    | succ i =>
      rw [List.set_cons_succ, List.filterMap_cons, List.filterMap_cons]
      have hi' : i < tl.length := by simpa using hi
      have hold' : ∀ h : i < tl.length, f tl[i] = some q := fun h => by
        have h0 := hold hi
        rwa [List.getElem_cons_succ] at h0
      cases hhd : f hd with
      | none => exact ih i a p q hi' hold' hnew hg
      | some r =>
        rw [List.map_cons, List.map_cons, ih i a p q hi' hold' hnew hg]

/-- With pairwise-distinct first components, a pair is determined by its
first component. -/
theorem nodup_fst_unique :
    ∀ (l : List (Nat × Nat)), (l.map Prod.fst).Nodup →
      ∀ p q, p ∈ l → q ∈ l → p.1 = q.1 → p = q := by
  intro l
  induction l with
  | nil => intro _ p q hp; simp at hp
  | cons hd tl ih =>
    intro hnd p q hp hq hfst
    rw [List.map_cons, List.nodup_cons] at hnd
    rcases List.mem_cons.mp hp with hp' | hp' <;> rcases List.mem_cons.mp hq with hq' | hq'
    · rw [hp', hq']
    · exfalso
      apply hnd.1
      rw [← hp', hfst]
      exact List.mem_map_of_mem Prod.fst hq'
    · exfalso
      apply hnd.1
      rw [← hq', ← hfst]
      exact List.mem_map_of_mem Prod.fst hp'
    · exact ih hnd.2 p q hp' hq' hfst

/-- A successful `get` scan survives overwriting an off-path slot with a
non-matching, non-Empty slot: the new content still says "continue". -/
theorem getProbe_set_other (slots : List Slot) (hq q idx : Nat) (a : Slot)
    (ha : ¬(a.flag = .used ∧ a.key = q)) (hane : a.flag ≠ .empty) :
    ∀ fuel i jdx, getProbe slots hq q i fuel = some jdx → idx ≠ jdx →
      getProbe (slots.set idx a) hq q i fuel = some jdx := by
  intro fuel
  induction fuel with
  | zero => intro i jdx hp; simp [getProbe] at hp
  | succ fuel ih =>
    intro i jdx hp hne
    rw [getProbe] at hp
    rw [getProbe, List.length_set]
    cases hs : slots[probeIdx hq slots.length i]? with
    | none => rw [hs] at hp; simp at hp
    | some s =>
      rw [hs] at hp
      by_cases hum : s.flag = .used ∧ s.key = q
      · simp only [if_pos hum] at hp
        obtain hj := Option.some.injEq .. ▸ hp
        subst hj
        rw [List.getElem?_set_ne hne, hs]
        simp only [if_pos hum]
      · simp only [if_neg hum] at hp
        by_cases he : s.flag = .empty
        · simp [if_pos he] at hp
        · simp only [if_neg he] at hp
          by_cases hhit : idx = probeIdx hq slots.length i
          · rw [← hhit, List.getElem?_set_self (hhit ▸ (List.getElem?_eq_some.mp hs).1)]
            simp only [if_neg ha, if_neg hane]
            exact ih (i+1) jdx hp hne
          · rw [List.getElem?_set_ne hhit, hs]
            simp only [if_neg hum, if_neg he]
            exact ih (i+1) jdx hp hne

/-- Table-level stability: a hit for `q` survives overwriting a slot that
neither was nor becomes a Used slot holding `q` (and does not become
Empty). -/
theorem get_set_other (t : Table) (q w idx : Nat) (a : Slot)
    (ha : ¬(a.flag = .used ∧ a.key = q)) (hane : a.flag ≠ .empty)
    (hidx : ¬((t.slots.getD idx default).flag = .used ∧ (t.slots.getD idx default).key = q))
    (hget : basic_hash_table_get t q = some w) :
    basic_hash_table_get { t with slots := t.slots.set idx a } q = some w := by
  unfold basic_hash_table_get basic_hash_table_get_inner at hget ⊢
  cases hg : getProbe t.slots (t.hash q) q 0 t.reserved with
  | none => rw [hg] at hget; simp at hget
  | some jdx =>
    rw [hg] at hget
    obtain ⟨s, hs, hu, hk⟩ := getProbe_spec t.slots (t.hash q) q _ _ _ hg
    have hgd : t.slots.getD jdx default = s := by
      rw [List.getD_eq_getElem?_getD, hs]; rfl
    have hne : idx ≠ jdx := by
      intro he
      rw [he, hgd] at hidx
      exact hidx ⟨hu, hk⟩
    have hg2 := getProbe_set_other t.slots (t.hash q) q idx a ha hane t.reserved 0 jdx hg hne
    simp only [Table.reserved, List.length_set]
    simp only [Table.reserved] at hg2
    rw [hg2]
    simpa [List.getElem?_set_ne hne] using hget

/-- A fresh placement is immediately visible to `get`. -/
theorem get_installAt (t : Table) (k v idx : Nat)
    (hsp : setProbe t.slots (t.hash k) k 0 t.reserved = some (idx, true)) :
    basic_hash_table_get (installAt t idx k v) k = some v := by
  obtain ⟨s, hs, -, -⟩ := setProbe_spec t.slots (t.hash k) k _ _ _ _ hsp
  have hlt := (List.getElem?_eq_some.mp hs).1
  have hget := getProbe_after_install t.slots (t.hash k) k v t.reserved 0 idx hsp
  unfold basic_hash_table_get basic_hash_table_get_inner installAt
  simp only [Table.reserved, List.length_set]
  simp only [Table.reserved] at hget
  rw [hget]
  simp [List.getD, List.getElem?_set_self hlt]

/-- A value overwrite is immediately visible to `get`. -/
theorem get_updateAt (t : Table) (k v idx : Nat)
    (hsp : setProbe t.slots (t.hash k) k 0 t.reserved = some (idx, false)) :
    basic_hash_table_get (updateAt t idx v) k = some v := by
  obtain ⟨s, hs, -, -⟩ := setProbe_spec t.slots (t.hash k) k _ _ _ _ hsp
  have hlt := (List.getElem?_eq_some.mp hs).1
  have hget := getProbe_after_update t.slots (t.hash k) k v t.reserved 0 idx hsp
  unfold basic_hash_table_get basic_hash_table_get_inner updateAt
  simp only [Table.reserved, List.length_set]
  simp only [Table.reserved] at hget
  rw [hget]
  simp [List.getD, List.getElem?_set_self hlt]

/-- In a tombstone-free table, a probe pass that ends in a fresh placement
implies the key was unreachable: both scans stop at the same first
Empty-or-match slot. -/
theorem getProbe_none_of_setProbe_fresh (slots : List Slot) (h k : Nat)
    (hnt : ∀ s ∈ slots, s.flag ≠ .deleted) :
    ∀ fuel i idx, setProbe slots h k i fuel = some (idx, true) →
      getProbe slots h k i fuel = none := by
  intro fuel
  induction fuel with
  | zero => intro i idx hp; simp [setProbe] at hp
  | succ fuel ih =>
    intro i idx hp
    rw [setProbe] at hp
    rw [getProbe]
    cases hs : slots[probeIdx h slots.length i]? with
    | none => rfl
    | some s =>
      rw [hs] at hp
      have hsd : s.flag ≠ .deleted := hnt s (List.getElem?_mem hs)
      by_cases hed : s.flag = .empty ∨ s.flag = .deleted
      · have he : s.flag = .empty := by
          rcases hed with he | hd
          · exact he
          · exact absurd hd hsd
        have : ¬(s.flag = .used ∧ s.key = k) := by rw [he]; simp
        simp only [if_neg this, if_pos he]
      · by_cases hk : s.key = k
        · simp only [if_neg hed, if_pos hk] at hp
          exact absurd (Prod.mk.injEq .. ▸ Option.some.injEq .. ▸ hp).2 (by simp)
        · simp only [if_neg hed, if_neg hk] at hp
          have : ¬(s.flag = .used ∧ s.key = k) := fun hc => hk hc.2
          simp only [if_neg this]
          have hnotempty : ¬s.flag = Flag.empty := fun hc => hed (Or.inl hc)
          simp only [if_neg hnotempty]
          exact ih (i+1) idx hp

/-- What a successful `set_inner`/retry-loop call guarantees on a
tombstone-free, duplicate-free, fully reachable table. -/
def SetPost (t : Table) (k v : Nat) (t' : Table) (b : Bool) : Prop :=
  NoTomb t' ∧ NodupKeys t' ∧ Reach t' ∧ t'.hash = t.hash ∧
    t.slots.length ≤ t'.slots.length ∧
    (t.load = usedCount t → t'.load = usedCount t') ∧
    (if k ∈ usedKeys t then
        b = false ∧ List.Perm (usedKeys t') (usedKeys t) ∧ usedCount t' = usedCount t
      else b = true ∧ List.Perm (usedPairs t') ((k, v) :: usedPairs t))

/-- What a successful rehash guarantees on a duplicate-free table. -/
def RehashPost (t : Table) (n : Nat) (t' : Table) : Prop :=
  NoTomb t' ∧ NodupKeys t' ∧ Reach t' ∧ t'.hash = t.hash ∧
    n ≤ t'.slots.length ∧ t'.load = usedCount t' ∧
    List.Perm (usedPairs t') (usedPairs t)

/-- The reinsertion walk's invariant over the accumulating fresh table. -/
def ReinsertPre (t : Table) (rest : List Slot) : Prop :=
  NoTomb t ∧ Reach t ∧ t.load = usedCount t ∧
    (usedKeys t ++ (rest.filterMap slotPair).map Prod.fst).Nodup

/-- What the reinsertion walk guarantees. -/
def ReinsertPost (t : Table) (rest : List Slot) (t' : Table) : Prop :=
  NoTomb t' ∧ NodupKeys t' ∧ Reach t' ∧ t'.hash = t.hash ∧
    t.slots.length ≤ t'.slots.length ∧ t'.load = usedCount t' ∧
    List.Perm (usedPairs t') (usedPairs t ++ rest.filterMap slotPair)

/-- A fresh placement establishes `SetPost` (insertion branch). -/
theorem installAt_SetPost (t : Table) (k v idx : Nat)
    (hsp : setProbe t.slots (t.hash k) k 0 t.reserved = some (idx, true))
    (hnt : NoTomb t) (hnd : NodupKeys t) (hre : Reach t) :
    SetPost t k v (installAt t idx k v) true := by
  obtain ⟨s, hs, hfresh, -⟩ := setProbe_spec t.slots (t.hash k) k _ _ _ _ hsp
  have hlt := (List.getElem?_eq_some.mp hs).1
  have hsget : t.slots[idx] = s := by
    have := List.getElem?_eq_getElem hlt
    rw [hs] at this
    exact (Option.some.injEq .. ▸ this).symm
  have hnotused : s.flag ≠ .used := by
    rcases hfresh rfl with he | hd
    · rw [he]; simp
    · rw [hd]; simp
  have hknot : k ∉ usedKeys t := by
    intro hk
    obtain ⟨p, hp, hp1⟩ := List.mem_map.mp hk
    have hget := hre p hp
    rw [hp1] at hget
    have hnone := getProbe_none_of_setProbe_fresh t.slots (t.hash k) k hnt t.reserved 0 idx hsp
    unfold basic_hash_table_get basic_hash_table_get_inner at hget
    rw [hnone] at hget
    simp at hget
  have hperm : List.Perm (usedPairs (installAt t idx k v)) ((k, v) :: usedPairs t) := by
    unfold usedPairs installAt
    exact filterMap_set_perm slotPair t.slots idx ⟨.used, k, v⟩ (k, v) hlt
      (fun h => by rw [hsget]; exact slotPair_not_used s hnotused) rfl
  have hkeysperm : List.Perm (usedKeys (installAt t idx k v)) (k :: usedKeys t) := by
    unfold usedKeys
    exact hperm.map Prod.fst
  have hnd' : NodupKeys (installAt t idx k v) := by
    unfold NodupKeys
    rw [hkeysperm.nodup_iff]
    exact List.nodup_cons.mpr ⟨hknot, hnd⟩
  refine ⟨?_, hnd', ?_, rfl, ?_, ?_, ?_⟩
  · intro s' hm
    rcases mem_set_cases _ _ _ _ hm with he | he
    · rw [he]; simp
    · exact hnt s' he
  · intro p hp
    obtain ⟨a, ham, hap⟩ := List.mem_filterMap.mp hp
    rcases mem_set_cases _ _ _ _ ham with he | he
    · rw [he] at hap
      have : p = (k, v) := by
        unfold slotPair at hap
        simpa using hap.symm
      rw [this]
      exact get_installAt t k v idx hsp
    · have hpmem : p ∈ usedPairs t := List.mem_filterMap.mpr ⟨a, he, hap⟩
      have hget := hre p hpmem
      have hp1ne : p.1 ≠ k := by
        intro heq
        exact hknot (heq ▸ List.mem_map_of_mem Prod.fst hpmem)
      have := get_set_other t p.1 p.2 idx ⟨.used, k, v⟩
        (fun hc => hp1ne (hc.2.symm)) (by simp)
        (fun hc => by
          rw [List.getD_eq_getElem?_getD, hs] at hc
          exact hnotused hc.1) hget
      exact this
  · unfold installAt
    simp [List.length_set]
  · intro hload
    have : usedCount (installAt t idx k v) = usedCount t + 1 := by
      unfold usedCount
      rw [hperm.length_eq]
      simp
    rw [this]
    unfold installAt
    simp [hload]
  · rw [if_neg hknot]
    exact ⟨rfl, hperm⟩

/-- A value overwrite establishes `SetPost` (replacement branch). -/
theorem updateAt_SetPost (t : Table) (k v idx : Nat)
    (hsp : setProbe t.slots (t.hash k) k 0 t.reserved = some (idx, false))
    (hnt : NoTomb t) (hnd : NodupKeys t) (hre : Reach t) :
    SetPost t k v (updateAt t idx v) false := by
  obtain ⟨s, hs, -, hmatch⟩ := setProbe_spec t.slots (t.hash k) k _ _ _ _ hsp
  obtain ⟨hused, hkey⟩ := hmatch rfl
  have hlt := (List.getElem?_eq_some.mp hs).1
  have hsget : t.slots[idx] = s := by
    have := List.getElem?_eq_getElem hlt
    rw [hs] at this
    exact (Option.some.injEq .. ▸ this).symm
  have hgd : t.slots.getD idx default = s := by
    rw [List.getD_eq_getElem?_getD, hs]; rfl
  have hkmem : k ∈ usedKeys t := by
    have hpmem : (s.key, s.val) ∈ usedPairs t :=
      List.mem_filterMap.mpr ⟨s, List.getElem?_mem hs, slotPair_used s hused⟩
    have := List.mem_map_of_mem Prod.fst hpmem
    rw [← hkey]
    exact this
  have hnewpair : slotPair { t.slots.getD idx default with flag := .used, val := v }
      = some (s.key, v) := by
    rw [hgd]
    rfl
  have hkeyseq : usedKeys (updateAt t idx v) = usedKeys t := by
    unfold usedKeys usedPairs updateAt
    exact filterMap_set_fst slotPair Prod.fst t.slots idx _ (s.key, v) (s.key, s.val) hlt
      (fun h => by rw [hsget]; exact slotPair_used s hused) hnewpair rfl
  have hnd' : NodupKeys (updateAt t idx v) := by
    unfold NodupKeys
    rw [hkeyseq]
    exact hnd
  have hcnt : usedCount (updateAt t idx v) = usedCount t := by
    have h1 : (usedKeys (updateAt t idx v)).length = (usedKeys t).length := by
      rw [hkeyseq]
    unfold usedKeys at h1
    simpa [usedCount] using h1
  have hnewmem : (k, v) ∈ usedPairs (updateAt t idx v) := by
    refine List.mem_filterMap.mpr ⟨_, List.mem_set t.slots idx hlt _, ?_⟩
    rw [hnewpair, hkey]
  refine ⟨?_, hnd', ?_, rfl, ?_, ?_, ?_⟩
  · intro s' hm
    rcases mem_set_cases _ _ _ _ hm with he | he
    · rw [he]; simp
    · exact hnt s' he
  · intro p hp
    obtain ⟨a, ham, hap⟩ := List.mem_filterMap.mp hp
    rcases mem_set_cases _ _ _ _ ham with he | he
    · rw [he, hnewpair] at hap
      have : p = (s.key, v) := by simpa using hap.symm
      rw [this]
      have := get_updateAt t k v idx hsp
      rw [hkey]
      simpa using this
    · have hpmem : p ∈ usedPairs t := List.mem_filterMap.mpr ⟨a, he, hap⟩
      by_cases hp1 : p.1 = k
      · have : p = (k, v) := nodup_fst_unique _ hnd' p (k, v) hp hnewmem (by rw [hp1])
        rw [this]
        exact get_updateAt t k v idx hsp
      · have hget := hre p hpmem
        have := get_set_other t p.1 p.2 idx
          { t.slots.getD idx default with flag := .used, val := v }
          (fun hc => hp1 (by rw [← hc.2, hgd, hkey])) (by rw [hgd]; simp)
          (fun hc => hp1 (by rw [← hc.2, hgd, hkey])) hget
        exact this
  · unfold updateAt
    simp [List.length_set]
  · intro hload
    rw [hcnt]
    unfold updateAt
    exact hload
  · rw [if_pos hkmem]
    exact ⟨rfl, by rw [hkeyseq], hcnt⟩

/-- A growth rehash followed by a successful retry composes to `SetPost`
of the original table. -/
theorem SetPost_trans_rehash (t p1 t' : Table) (n k v : Nat) (b : Bool)
    (h1 : RehashPost t n p1) (hn : t.slots.length ≤ n) (h2 : SetPost p1 k v t' b) :
    SetPost t k v t' b := by
  obtain ⟨hnt1, hnd1, hre1, hh1, hl1, hload1, hup1⟩ := h1
  obtain ⟨hnt2, hnd2, hre2, hh2, hl2, hload2, hif2⟩ := h2
  have hkeys1 : List.Perm (usedKeys p1) (usedKeys t) := hup1.map Prod.fst
  have hcnt1 : usedCount p1 = usedCount t := hup1.length_eq
  refine ⟨hnt2, hnd2, hre2, hh2.trans hh1, le_trans hn (le_trans hl1 hl2), ?_, ?_⟩
  · intro hload
    exact hload2 hload1
  · by_cases hk : k ∈ usedKeys t
    · rw [if_pos hk]
      have hk1 : k ∈ usedKeys p1 := hkeys1.mem_iff.mpr hk
      rw [if_pos hk1] at hif2
      exact ⟨hif2.1, hif2.2.1.trans hkeys1, hif2.2.2.trans hcnt1⟩
    · rw [if_neg hk]
      have hk1 : k ∉ usedKeys p1 := fun hc => hk (hkeys1.mem_iff.mp hc)
      rw [if_neg hk1] at hif2
      exact ⟨hif2.1, hif2.2.trans (List.Perm.cons (k, v) hup1)⟩

/-- The semantic invariants of the whole mutually recursive set/rehash
machinery, by one induction on the fuel: the retry loop and `set_inner`
preserve tombstone-freeness, key-distinctness and reachability and
insert/overwrite the written pair; rehash drops nothing but tombstones
and recounts the load; the reinsertion walk accumulates the old Occupied
pairs. -/
theorem run_semantics : ∀ fuel,
    (∀ t h k v p, run fuel (.setLoop t h k v) = some p → h = t.hash k →
      NoTomb t → NodupKeys t → Reach t → SetPost t k v p.1 p.2) ∧
    (∀ t n p, run fuel (.rehash t n) = some p → NodupKeys t → RehashPost t n p.1) ∧
    (∀ t k v reset p, run fuel (.setInner t k v reset) = some p →
      NoTomb t → NodupKeys t → Reach t → SetPost t k v p.1 p.2) ∧
    (∀ t rest p, run fuel (.reinsert t rest) = some p → ReinsertPre t rest →
      ReinsertPost t rest p.1) := by
  intro fuel
  induction fuel with
  | zero =>
    refine ⟨?_, ?_, ?_, ?_⟩
    · intro t h k v p hr
      simp [run] at hr
    · intro t n p hr
      simp [run] at hr
    · intro t k v reset p hr
      simp [run] at hr
    · intro t rest p hr
      simp [run] at hr
  | succ fuel ih =>
    obtain ⟨ihSL, ihRH, ihSI, ihRI⟩ := ih
    have partSL : ∀ t h k v p, run (fuel+1) (.setLoop t h k v) = some p → h = t.hash k →
        NoTomb t → NodupKeys t → Reach t → SetPost t k v p.1 p.2 := by
      intro t h k v p hr hh hnt hnd hre
      rw [run] at hr
      cases hsp : setProbe t.slots h k 0 t.reserved with
      | some r =>
        obtain ⟨idx, bb⟩ := r
        rw [hsp] at hr
        cases bb with
        | true =>
          simp only at hr
          obtain hp := (Option.some.injEq .. ▸ hr).symm
          rw [hp]
          rw [hh] at hsp
          exact installAt_SetPost t k v idx hsp hnt hnd hre
        | false =>
          simp only at hr
          obtain hp := (Option.some.injEq .. ▸ hr).symm
          rw [hp]
          rw [hh] at hsp
          exact updateAt_SetPost t k v idx hsp hnt hnd hre
      | none =>
        rw [hsp] at hr
        simp only at hr
        cases hrh : run fuel (.rehash t (nextPrimeSize t.reserved)) with
        | none => rw [hrh] at hr; simp at hr
        | some p1 =>
          rw [hrh] at hr
          simp only at hr
          have hRH := ihRH t (nextPrimeSize t.reserved) p1 hrh hnd
          have hh1 : h = p1.1.hash k := by rw [hh, hRH.2.2.2.1]
          have hSL := ihSL p1.1 h k v p hr hh1 hRH.1 hRH.2.1 hRH.2.2.1
          exact SetPost_trans_rehash t p1.1 p.1 (nextPrimeSize t.reserved) k v p.2 hRH
            (le_of_lt (next_prime_size_spec t.slots.length).1) hSL
    have partRH : ∀ t n p, run (fuel+1) (.rehash t n) = some p → NodupKeys t →
        RehashPost t n p.1 := by
      intro t n p hr hnd
      rw [run] at hr
      have hfreshkeys :
          usedKeys { hash := t.hash, slots := List.replicate n default, load := 0 } = [] := by
        unfold usedKeys usedPairs
        simp only
        rw [usedPairs_replicate]
        rfl
      have hpre : ReinsertPre { hash := t.hash, slots := List.replicate n default, load := 0 }
          t.slots := by
        refine ⟨?_, ?_, ?_, ?_⟩
        · intro s hm
          rw [List.eq_of_mem_replicate hm]
          simp [default]
        · intro q hq
          unfold usedPairs at hq
          simp only at hq
          rw [usedPairs_replicate] at hq
          simp at hq
        · unfold usedCount usedPairs
          simp only
          rw [usedPairs_replicate]
          rfl
        · rw [hfreshkeys, List.nil_append]
          exact hnd
      have hRI := ihRI _ t.slots p hr hpre
      obtain ⟨hnt', hnd', hre', hh', hlen', hload', hup'⟩ := hRI
      refine ⟨hnt', hnd', hre', hh', ?_, hload', ?_⟩
      · have hfl : ({ hash := t.hash, slots := List.replicate n default, load := 0 } : Table).slots.length = n := by simp
        rw [← hfl]
        exact hlen'
      · refine hup'.trans ?_
        unfold usedPairs
        simp only
        rw [usedPairs_replicate, List.nil_append]
    have partSI : ∀ t k v reset p, run (fuel+1) (.setInner t k v reset) = some p →
        NoTomb t → NodupKeys t → Reach t → SetPost t k v p.1 p.2 := by
      intro t k v reset p hr hnt hnd hre
      rw [run] at hr
      by_cases hload : t.load > t.reserved / 2
      · simp only [if_pos hload] at hr
        cases reset with
        | true => simp at hr
        | false =>
          simp only [Bool.false_eq_true, if_false] at hr
          cases hrh : run fuel (.rehash t (nextPrimeSize t.reserved)) with
          | none => rw [hrh] at hr; simp at hr
          | some p1 =>
            rw [hrh] at hr
            simp only at hr
            have hRH := ihRH t (nextPrimeSize t.reserved) p1 hrh hnd
            have hh1 : t.hash k = p1.1.hash k := by rw [hRH.2.2.2.1]
            have hSL := ihSL p1.1 (t.hash k) k v p hr hh1 hRH.1 hRH.2.1 hRH.2.2.1
            exact SetPost_trans_rehash t p1.1 p.1 (nextPrimeSize t.reserved) k v p.2 hRH
              (le_of_lt (next_prime_size_spec t.slots.length).1) hSL
      · simp only [if_neg hload] at hr
        exact ihSL t (t.hash k) k v p hr rfl hnt hnd hre
    have partRI : ∀ t rest p, run (fuel+1) (.reinsert t rest) = some p →
        ReinsertPre t rest → ReinsertPost t rest p.1 := by
      intro t rest p hr hpre
      obtain ⟨hnt, hre, hload, hnddup⟩ := hpre
      cases rest with
      | nil =>
        rw [run] at hr
        obtain hp := (Option.some.injEq .. ▸ hr).symm
        rw [hp]
        refine ⟨hnt, ?_, hre, rfl, le_refl _, hload, by simp⟩
        unfold NodupKeys
        exact (List.nodup_append.mp hnddup).1
      | cons s rest' =>
        rw [run] at hr
        by_cases hf : s.flag = .used
        · simp only [if_pos hf] at hr
          cases hsi : run fuel (.setInner t s.key s.val true) with
          | none => rw [hsi] at hr; simp at hr
          | some p1 =>
            rw [hsi] at hr
            simp only at hr
            have hnd : NodupKeys t := (List.nodup_append.mp hnddup).1
            have hSP := ihSI t s.key s.val true p1 hsi hnt hnd hre
            have hpairs : (s :: rest').filterMap slotPair
                = (s.key, s.val) :: rest'.filterMap slotPair := by
              rw [List.filterMap_cons, slotPair_used s hf]
            have hkeynot : s.key ∉ usedKeys t := by
              have hdisj := (List.nodup_append.mp hnddup).2.2
              intro hmem
              refine hdisj hmem ?_
              rw [hpairs]
              simp
            obtain ⟨hnt1, hnd1, hre1, hh1, hlen1, hload1, hif1⟩ := hSP
            rw [if_neg hkeynot] at hif1
            obtain ⟨-, hup1⟩ := hif1
            have hkeys1 : List.Perm (usedKeys p1.1) (s.key :: usedKeys t) := by
              have := hup1.map Prod.fst
              simpa [usedKeys] using this
            have hpre1 : ReinsertPre p1.1 rest' := by
              refine ⟨hnt1, hre1, hload1 hload, ?_⟩
              have hperm : List.Perm (usedKeys p1.1 ++ (rest'.filterMap slotPair).map Prod.fst)
                  (usedKeys t ++ ((s :: rest').filterMap slotPair).map Prod.fst) := by
                rw [hpairs]
                refine (List.Perm.append_right _ hkeys1).trans ?_
                rw [List.cons_append, List.map_cons]
                exact List.perm_middle.symm
              rw [hperm.nodup_iff]
              exact hnddup
            have hRI := ihRI p1.1 rest' p hr hpre1
            obtain ⟨hnt2, hnd2, hre2, hh2, hlen2, hload2, hup2⟩ := hRI
            refine ⟨hnt2, hnd2, hre2, hh2.trans hh1, le_trans hlen1 hlen2, hload2, ?_⟩
            refine hup2.trans ?_
            rw [hpairs]
            refine (List.Perm.append_right _ hup1).trans ?_
            rw [List.cons_append]
            exact List.perm_middle.symm
        · simp only [if_neg hf] at hr
          have hpairs : (s :: rest').filterMap slotPair = rest'.filterMap slotPair := by
            rw [List.filterMap_cons, slotPair_not_used s (fun hc => hf hc)]
          have hpre' : ReinsertPre t rest' := by
            refine ⟨hnt, hre, hload, ?_⟩
            rw [← hpairs]
            exact hnddup
          have hRI := ihRI t rest' p hr hpre'
          obtain ⟨hnt2, hnd2, hre2, hh2, hlen2, hload2, hup2⟩ := hRI
          refine ⟨hnt2, hnd2, hre2, hh2, hlen2, hload2, ?_⟩
          rw [hpairs]
          exact hup2
    exact ⟨partSL, partRH, partSI, partRI⟩

/-- The rehash of the duplicate-key table, for the C3 counterexample. -/
def c3Table : Table :=
  match basic_hash_table_rehash 20 c2Table (nextPrimeSize c2Table.reserved) with
  | some t => t
  | none => c2Table

/-- Counterexample to C3 as stated: `c2Table` (reachable, see C9/C2) holds
the Occupied pair `(2, 21)`; the growth rehash reinserts the stale
duplicate `(2, 20)` over it, so after the rehash key 2 is no longer
reachable with that Occupied slot's prior value. -/
theorem rehash_preserves_counterexample :
    basic_hash_table_rehash 20 c2Table (nextPrimeSize c2Table.reserved) = some c3Table ∧
      (2, 21) ∈ usedPairs c2Table ∧
      basic_hash_table_get c3Table 2 = some 20 ∧
      basic_hash_table_get c3Table 2 ≠ some 21 := by
  exact ⟨rfl, by decide, by decide, by decide⟩

/-- C3 (amended): a rehash of a table whose Occupied slots hold pairwise
distinct keys — true except in the duplicate-key states of C9 — preserves
contents: every previously Occupied key is reachable via `get` afterwards
with its prior value, the Occupied pairs are exactly preserved (so
tombstoned keys are dropped and no tombstone is carried into the new
storage), and load is recomputed to count exactly the Occupied slots. -/
theorem rehash_preserves_contents
    (fuel : Nat) (t : Table) (n : Nat) (t' : Table)
    (hnd : NodupKeys t)
    (hr : basic_hash_table_rehash fuel t n = some t') :
    (∀ p ∈ usedPairs t, basic_hash_table_get t' p.1 = some p.2) ∧
      List.Perm (usedPairs t') (usedPairs t) ∧
      NoTomb t' ∧
      t'.load = usedCount t' := by
  unfold basic_hash_table_rehash at hr
  cases hrun : run fuel (.rehash t n) with
  | none => rw [hrun] at hr; simp at hr
  | some p =>
    rw [hrun] at hr
    have hp : p.1 = t' := by simpa using hr
    have hRH := (run_semantics fuel).2.1 t n p hrun hnd
    obtain ⟨hnt', hnd', hre', -, -, hload', hup'⟩ := hRH
    rw [← hp]
    refine ⟨?_, hup', hnt', hload'⟩
    intro q hq
    exact hre' q (hup'.mem_iff.mpr hq)

instance (t : Table) : Decidable (NodupKeys t) := by
  unfold NodupKeys
  infer_instance

instance (t : Table) : Decidable (NoTomb t) := by
  unfold NoTomb
  infer_instance

instance (t : Table) : Decidable (Reach t) := by
  unfold Reach
  infer_instance

/-- A table with two live keys and one tombstone, for the C3 witness. -/
def c3wTable : Table :=
  applyOps 20 (basic_hash_table_new (fun _ => 0))
    [.opSet 1 10, .opSet 2 20, .opSet 3 30, .opRemove 1]

/-- Its rehash. -/
def c3wRehashed : Table :=
  match basic_hash_table_rehash 20 c3wTable 17 with
  | some t => t
  | none => c3wTable

/-- Witness for the amended C3 at a concrete input: both live pairs stay
reachable, the pairs are exactly preserved, the tombstone is dropped, and
the load drops from 3 (tombstones counted) to the 2 truly occupied
slots. -/
theorem rehash_preserves_contents_witness :
    (∀ p ∈ usedPairs c3wTable, basic_hash_table_get c3wRehashed p.1 = some p.2) ∧
      List.Perm (usedPairs c3wRehashed) (usedPairs c3wTable) ∧
      NoTomb c3wRehashed ∧
      c3wRehashed.load = usedCount c3wRehashed :=
  rehash_preserves_contents 20 c3wTable 17 c3wRehashed (by decide) rfl

/-! ## Iteration -/

/-- Beyond the end, `next` reports `end` and yields nothing. -/
theorem next_past_end (t : Table) (i : Nat) (hi : t.slots.length ≤ i) :
    basic_hash_table_next t i = (t.reserved, none) := by
  unfold basic_hash_table_next
  have h0 : t.reserved - i = 0 := by
    unfold Table.reserved
    omega
  rw [h0]
  have hj : nextUsedIdx t.slots i 0 = i := rfl
  rw [hj, if_pos (by exact hi)]

/-- At an Used slot, `next` yields its pair and advances by one. -/
theorem next_at_used (t : Table) (i : Nat) (hi : i < t.slots.length)
    (hu : (t.slots.getD i default).flag = .used) :
    basic_hash_table_next t i
      = (i + 1, some ((t.slots.getD i default).key, (t.slots.getD i default).val)) := by
  unfold basic_hash_table_next
  have hfuel : t.reserved - i = (t.reserved - (i+1)) + 1 := by
    unfold Table.reserved
    omega
  rw [hfuel]
  have hj : nextUsedIdx t.slots i (t.reserved - (i+1) + 1) = i := by
    rw [nextUsedIdx]
    rw [if_neg (fun hc => hc.2 hu)]
  rw [hj, if_neg (by unfold Table.reserved; omega)]

/-- At a non-Used slot, `next` behaves as if started one further. -/
theorem next_skip (t : Table) (i : Nat) (hi : i < t.slots.length)
    (hu : (t.slots.getD i default).flag ≠ .used) :
    basic_hash_table_next t i = basic_hash_table_next t (i + 1) := by
  unfold basic_hash_table_next
  have hfuel : t.reserved - i = (t.reserved - (i+1)) + 1 := by
    unfold Table.reserved
    omega
  rw [hfuel]
  have hj : nextUsedIdx t.slots i (t.reserved - (i+1) + 1)
      = nextUsedIdx t.slots (i+1) (t.reserved - (i+1)) := by
    rw [nextUsedIdx]
    rw [if_pos ⟨hi, hu⟩]
  rw [hj]

/-- Driving `next` from position `i` yields exactly the Occupied pairs of
the slot suffix from `i`, given enough iteration fuel. -/
theorem iterFrom_eq (t : Table) :
    ∀ d fuel i, t.slots.length - i = d → d ≤ fuel →
      iterFrom t i fuel = (t.slots.drop i).filterMap slotPair := by
  intro d
  induction d using Nat.strong_induction_on with
  | _ d ihd =>
    intro fuel i hd hfuel
    by_cases hend : t.slots.length ≤ i
    · rw [List.drop_eq_nil_of_le hend, List.filterMap_nil]
      cases fuel with
      | zero => rfl
      | succ fuel =>
        rw [iterFrom, next_past_end t i hend]
    · push_neg at hend
      have hdrop : t.slots.drop i = t.slots.getD i default :: t.slots.drop (i+1) := by
        rw [List.getD_eq_getElem?_getD, List.getElem?_eq_getElem hend]
        exact List.drop_eq_getElem_cons hend
      cases fuel with
      | zero => omega
      | succ fuel =>
        by_cases hu : (t.slots.getD i default).flag = .used
        · rw [iterFrom, next_at_used t i hend hu]
          simp only
          rw [hdrop, List.filterMap_cons, slotPair_used _ hu]
          have := ihd (d - 1) (by omega) fuel (i+1) (by omega) (by omega)
          rw [this]
        · have hiter : iterFrom t i (fuel+1) = iterFrom t (i+1) (fuel+1) := by
            rw [iterFrom, next_skip t i hend hu, iterFrom]
          rw [hiter, hdrop, List.filterMap_cons, slotPair_not_used _ hu]
          exact ihd (d - 1) (by omega) (fuel+1) (i+1) (by omega) (by omega)

/-- A full iteration pass yields exactly the Occupied pairs in slot
order. -/
theorem iterAll_eq_usedPairs (t : Table) : iterAll t = usedPairs t := by
  unfold iterAll basic_hash_table_begin usedPairs
  rw [iterFrom_eq t t.slots.length t.reserved 0 (by omega) (le_of_eq rfl)]
  rw [List.drop_zero]

/-- Inserting pairs with fresh distinct keys accumulates exactly those
pairs, preserving tombstone-freeness, key-distinctness and
reachability. -/
theorem insertAll_semantics (fuel : Nat) :
    ∀ (kvs : List (Nat × Nat)) (t t' : Table), insertAll fuel t kvs = some t' →
      NoTomb t → NodupKeys t → Reach t →
      (usedKeys t ++ kvs.map Prod.fst).Nodup →
      NoTomb t' ∧ NodupKeys t' ∧ Reach t' ∧
        List.Perm (usedPairs t') (usedPairs t ++ kvs) := by
  intro kvs
  induction kvs with
  | nil =>
    intro t t' hins hnt hnd hre hnddup
    unfold insertAll at hins
    obtain ht := Option.some.injEq .. ▸ hins
    rw [← ht]
    exact ⟨hnt, hnd, hre, by simp⟩
  | cons kv rest ih =>
    intro t t' hins hnt hnd hre hnddup
    obtain ⟨k, v⟩ := kv
    unfold insertAll at hins
    cases hset : basic_hash_table_set fuel t k v with
    | none => rw [hset] at hins; simp at hins
    | some p1 =>
      rw [hset] at hins
      simp only at hins
      have hSP := (run_semantics fuel).2.2.1 t k v false p1 hset hnt hnd hre
      have hkeynot : k ∉ usedKeys t := by
        have hdisj := (List.nodup_append.mp hnddup).2.2
        intro hmem
        exact hdisj hmem (by simp)
      obtain ⟨hnt1, hnd1, hre1, hh1, hlen1, hload1, hif1⟩ := hSP
      rw [if_neg hkeynot] at hif1
      obtain ⟨-, hup1⟩ := hif1
      have hkeys1 : List.Perm (usedKeys p1.1) (k :: usedKeys t) := by
        have := hup1.map Prod.fst
        simpa [usedKeys] using this
      have hnddup1 : (usedKeys p1.1 ++ rest.map Prod.fst).Nodup := by
        have hperm : List.Perm (usedKeys p1.1 ++ rest.map Prod.fst)
            (usedKeys t ++ ((k, v) :: rest).map Prod.fst) := by
          refine (List.Perm.append_right _ hkeys1).trans ?_
          rw [List.map_cons, List.cons_append]
          exact List.perm_middle.symm
        rw [hperm.nodup_iff]
        exact hnddup
      have hrest := ih p1.1 t' hins hnt1 hnd1 hre1 hnddup1
      obtain ⟨hnt2, hnd2, hre2, hup2⟩ := hrest
      refine ⟨hnt2, hnd2, hre2, ?_⟩
      refine hup2.trans ?_
      refine (List.Perm.append_right _ hup1).trans ?_
      rw [List.cons_append]
      exact List.perm_middle.symm

/-- The fresh table is tombstone-free, duplicate-free, trivially reachable
and empty. -/
theorem new_table_empty (hash : Nat → Nat) :
    NoTomb (basic_hash_table_new hash) ∧ NodupKeys (basic_hash_table_new hash) ∧
      Reach (basic_hash_table_new hash) ∧ usedPairs (basic_hash_table_new hash) = [] := by
  have hup : usedPairs (basic_hash_table_new hash) = [] := usedPairs_replicate 13
  refine ⟨?_, ?_, ?_, hup⟩
  · intro s hm
    rw [List.eq_of_mem_replicate hm]
    simp [default]
  · unfold NodupKeys usedKeys
    rw [hup]
    exact List.nodup_nil
  · intro p hp
    rw [hup] at hp
    simp at hp

/-- C8: after inserting `N` pairs with pairwise distinct keys into a fresh
table (no removes), iterating with `begin`/`next` until `end` yields
exactly the `N` Occupied slots, each yielded key distinct, and the
multiset of yielded key/value pairs equals the inserted one
(order-independent comparison). -/
theorem insert_iterate_roundtrip
    (fuel : Nat) (hash : Nat → Nat) (kvs : List (Nat × Nat)) (t : Table)
    (hnd : (kvs.map Prod.fst).Nodup)
    (hins : insertAll fuel (basic_hash_table_new hash) kvs = some t) :
    List.Perm (iterAll t) kvs ∧
      (iterAll t).length = kvs.length ∧
      usedCount t = kvs.length ∧
      ((iterAll t).map Prod.fst).Nodup := by
  obtain ⟨hnt0, hnd0, hre0, hup0⟩ := new_table_empty hash
  have hnddup : (usedKeys (basic_hash_table_new hash) ++ kvs.map Prod.fst).Nodup := by
    unfold usedKeys
    rw [hup0]
    simpa using hnd
  obtain ⟨-, hnd', -, hup⟩ :=
    insertAll_semantics fuel kvs (basic_hash_table_new hash) t hins hnt0 hnd0 hre0 hnddup
  rw [hup0, List.nil_append] at hup
  rw [iterAll_eq_usedPairs]
  refine ⟨hup, hup.length_eq, hup.length_eq, ?_⟩
  have : List.Perm ((usedPairs t).map Prod.fst) (kvs.map Prod.fst) := hup.map Prod.fst
  rw [this.nodup_iff]
  exact hnd

/-- The table built by inserting three distinct keys, for the C8
witness. -/
def c8Table : Table :=
  match insertAll 8 (basic_hash_table_new (fun n => n)) [(1, 10), (2, 20), (3, 30)] with
  | some t => t
  | none => basic_hash_table_new (fun n => n)

/-- Witness for C8 at a concrete input. -/
theorem insert_iterate_roundtrip_witness :
    List.Perm (iterAll c8Table) [(1, 10), (2, 20), (3, 30)] ∧
      (iterAll c8Table).length = 3 ∧
      usedCount c8Table = 3 ∧
      ((iterAll c8Table).map Prod.fst).Nodup :=
  insert_iterate_roundtrip 8 (fun n => n) [(1, 10), (2, 20), (3, 30)] c8Table
    (by decide) rfl

/-! ## Load accounting -/

/-- Capacities actually reachable through growth: the seed primes, then
anything at or past the last one. -/
def GoodCap (c : Nat) : Prop := c ∈ primes ∨ 349 ≤ c

instance (c : Nat) : Decidable (GoodCap c) := by
  unfold GoodCap
  infer_instance

/-- Growth stays inside the reachable capacities. -/
theorem goodCap_next (c : Nat) (h : GoodCap c) : GoodCap (nextPrimeSize c) := by
  rcases h with h | h
  · simp only [primes, List.mem_cons, List.mem_singleton] at h
    rcases h with rfl|rfl|rfl|rfl|rfl|rfl|rfl|rfl|h
    · decide
    · decide
    · decide
    · decide
    · decide
    · decide
    · decide
    · decide
    · simp at h
      rw [h]
      decide
  · right
    have := (next_prime_size_spec c).1
    omega

/-- On a reachable capacity, growth gains at least one over the half
threshold. -/
theorem half_lt_next_half (c : Nat) (h : GoodCap c) : c / 2 + 1 ≤ nextPrimeSize c / 2 := by
  rcases h with h | h
  · simp only [primes, List.mem_cons, List.mem_singleton] at h
    rcases h with rfl|rfl|rfl|rfl|rfl|rfl|rfl|rfl|h
    · decide
    · decide
    · decide
    · decide
    · decide
    · decide
    · decide
    · decide
    · simp at h
      rw [h]
      decide
  · have := (next_prime_size_spec c).2.2 h
    rw [this]
    omega

/-- A fresh placement raises the Occupied count by one. -/
theorem usedCount_installAt (t : Table) (h k v idx : Nat)
    (hsp : setProbe t.slots h k 0 t.reserved = some (idx, true)) :
    usedCount (installAt t idx k v) = usedCount t + 1 := by
  obtain ⟨s, hs, hfresh, -⟩ := setProbe_spec t.slots h k _ _ _ _ hsp
  have hlt := (List.getElem?_eq_some.mp hs).1
  have hsget : t.slots[idx] = s := by
    have := List.getElem?_eq_getElem hlt
    rw [hs] at this
    exact (Option.some.injEq .. ▸ this).symm
  have hnotused : s.flag ≠ .used := by
    rcases hfresh rfl with he | hd
    · rw [he]; simp
    · rw [hd]; simp
  have hperm : List.Perm (usedPairs (installAt t idx k v)) ((k, v) :: usedPairs t) := by
    unfold usedPairs installAt
    exact filterMap_set_perm slotPair t.slots idx ⟨.used, k, v⟩ (k, v) hlt
      (fun hh => by rw [hsget]; exact slotPair_not_used s hnotused) rfl
  unfold usedCount
  rw [hperm.length_eq]
  rfl

/-- A value overwrite leaves the Occupied count unchanged. -/
theorem usedCount_updateAt (t : Table) (h k v idx : Nat)
    (hsp : setProbe t.slots h k 0 t.reserved = some (idx, false)) :
    usedCount (updateAt t idx v) = usedCount t := by
  obtain ⟨s, hs, -, hmatch⟩ := setProbe_spec t.slots h k _ _ _ _ hsp
  obtain ⟨hused, -⟩ := hmatch rfl
  have hlt := (List.getElem?_eq_some.mp hs).1
  have hsget : t.slots[idx] = s := by
    have := List.getElem?_eq_getElem hlt
    rw [hs] at this
    exact (Option.some.injEq .. ▸ this).symm
  have hgd : t.slots.getD idx default = s := by
    rw [List.getD_eq_getElem?_getD, hs]; rfl
  have hkeyseq : ((usedPairs (updateAt t idx v)).map Prod.fst).length
      = ((usedPairs t).map Prod.fst).length := by
    unfold usedPairs updateAt
    rw [filterMap_set_fst slotPair Prod.fst t.slots idx _ (s.key, v) (s.key, s.val) hlt
      (fun hh => by rw [hsget]; exact slotPair_used s hused) (by rw [hgd]; rfl) rfl]
  unfold usedCount
  simpa using hkeyseq

/-- Load accounting across the whole set/rehash machinery, by one
induction on the fuel: capacity never shrinks and stays among reachable
capacities, a call adds at most one Occupied slot, rehash recounts load
as the Occupied count, and a `set` either worked in place under the
half-full threshold (load grows by at most one) or went through growth
(load collapses to at most one more than the previous Occupied count,
capacity at least the next growth step). -/
theorem run_load : ∀ fuel,
    (∀ t h k v t' b, run fuel (.setLoop t h k v) = some (t', b) →
      t.slots.length ≤ t'.slots.length ∧ usedCount t' ≤ usedCount t + 1 ∧
      (t.load = usedCount t → t'.load = usedCount t') ∧
      (usedCount t ≤ t.load → usedCount t' ≤ t'.load) ∧
      (GoodCap t.slots.length → GoodCap t'.slots.length) ∧
      (t'.load ≤ t.load + 1 ∧ t'.slots.length = t.slots.length ∨
        t'.load ≤ usedCount t + 1 ∧ nextPrimeSize t.slots.length ≤ t'.slots.length)) ∧
    (∀ t n t' b, run fuel (.rehash t n) = some (t', b) →
      t'.load = usedCount t' ∧ usedCount t' ≤ usedCount t ∧ n ≤ t'.slots.length ∧
      (GoodCap n → GoodCap t'.slots.length)) ∧
    (∀ t k v reset t' b, run fuel (.setInner t k v reset) = some (t', b) →
      t.slots.length ≤ t'.slots.length ∧ usedCount t' ≤ usedCount t + 1 ∧
      (t.load = usedCount t → t'.load = usedCount t') ∧
      (usedCount t ≤ t.load → usedCount t' ≤ t'.load) ∧
      (GoodCap t.slots.length → GoodCap t'.slots.length) ∧
      (¬t.load > t.slots.length / 2 ∧ t'.load ≤ t.load + 1 ∧
          t'.slots.length = t.slots.length ∨
        t'.load ≤ usedCount t + 1 ∧ nextPrimeSize t.slots.length ≤ t'.slots.length)) ∧
    (∀ t rest t' b, run fuel (.reinsert t rest) = some (t', b) → t.load = usedCount t →
      t'.load = usedCount t' ∧
      usedCount t' ≤ usedCount t + (rest.filterMap slotPair).length ∧
      t.slots.length ≤ t'.slots.length ∧
      (GoodCap t.slots.length → GoodCap t'.slots.length)) := by
  intro fuel
  induction fuel with
  | zero =>
    refine ⟨?_, ?_, ?_, ?_⟩
    · intro t h k v t' b hr
      simp [run] at hr
    · intro t n t' b hr
      simp [run] at hr
    · intro t k v reset t' b hr
      simp [run] at hr
    · intro t rest t' b hr
      simp [run] at hr
  | succ fuel ih =>
    obtain ⟨ihSL, ihRH, ihSI, ihRI⟩ := ih
    have partSL : ∀ t h k v t' b, run (fuel+1) (.setLoop t h k v) = some (t', b) →
        t.slots.length ≤ t'.slots.length ∧ usedCount t' ≤ usedCount t + 1 ∧
        (t.load = usedCount t → t'.load = usedCount t') ∧
        (usedCount t ≤ t.load → usedCount t' ≤ t'.load) ∧
        (GoodCap t.slots.length → GoodCap t'.slots.length) ∧
        (t'.load ≤ t.load + 1 ∧ t'.slots.length = t.slots.length ∨
          t'.load ≤ usedCount t + 1 ∧ nextPrimeSize t.slots.length ≤ t'.slots.length) := by
      intro t h k v t' b hr
      rw [run] at hr
      cases hsp : setProbe t.slots h k 0 t.reserved with
      | some r =>
        obtain ⟨idx, bb⟩ := r
        rw [hsp] at hr
        cases bb with
        | true =>
          simp only at hr
          obtain ⟨h1, -⟩ := Prod.mk.injEq .. ▸ Option.some.injEq .. ▸ hr
          subst h1
          have hcnt := usedCount_installAt t h k v idx hsp
          have hlen : (installAt t idx k v).slots.length = t.slots.length := by
            unfold installAt
            simp [List.length_set]
          have hload : (installAt t idx k v).load = t.load + 1 := rfl
          refine ⟨le_of_eq hlen.symm, by omega, by omega, by omega,
            by rw [hlen]; exact id, ?_⟩
          left
          exact ⟨le_of_eq hload, hlen⟩
        | false =>
          simp only at hr
          obtain ⟨h1, -⟩ := Prod.mk.injEq .. ▸ Option.some.injEq .. ▸ hr
          subst h1
          have hcnt := usedCount_updateAt t h k v idx hsp
          have hlen : (updateAt t idx v).slots.length = t.slots.length := by
            unfold updateAt
            simp [List.length_set]
          have hload : (updateAt t idx v).load = t.load := rfl
          refine ⟨le_of_eq hlen.symm, by omega, by omega, by omega,
            by rw [hlen]; exact id, ?_⟩
          left
          exact ⟨by omega, hlen⟩
      | none =>
        rw [hsp] at hr
        simp only at hr
        cases hrh : run fuel (.rehash t (nextPrimeSize t.reserved)) with
        | none => rw [hrh] at hr; simp at hr
        | some p1 =>
          obtain ⟨q1, b1⟩ := p1
          rw [hrh] at hr
          simp only at hr
          obtain ⟨hl1, hc1, hn1, hg1⟩ := ihRH t (nextPrimeSize t.reserved) q1 b1 hrh
          simp only [Table.reserved] at hn1 hg1
          obtain ⟨hlen2, hc2, hl2, hc2l, hg2, hd2⟩ := ihSL q1 h k v t' b hr
          have hgrow : t.slots.length < nextPrimeSize t.slots.length :=
            (next_prime_size_spec t.slots.length).1
          refine ⟨by omega, by omega, fun _ => hl2 hl1, fun _ => hc2l (le_of_eq hl1.symm),
            ?_, ?_⟩
          · intro hg
            exact hg2 (hg1 (goodCap_next _ hg))
          · right
            rcases hd2 with ⟨ha, -⟩ | ⟨ha, -⟩
            · exact ⟨by omega, by omega⟩
            · exact ⟨by omega, by omega⟩
    have partRH : ∀ t n t' b, run (fuel+1) (.rehash t n) = some (t', b) →
        t'.load = usedCount t' ∧ usedCount t' ≤ usedCount t ∧ n ≤ t'.slots.length ∧
        (GoodCap n → GoodCap t'.slots.length) := by
      intro t n t' b hr
      rw [run] at hr
      have hfresh0 : ({ hash := t.hash, slots := List.replicate n default, load := 0 }
          : Table).load
          = usedCount { hash := t.hash, slots := List.replicate n default, load := 0 } := by
        unfold usedCount usedPairs
        simp only
        rw [usedPairs_replicate]
        rfl
      obtain ⟨hl, hc, hlen, hg⟩ := ihRI _ t.slots t' b hr hfresh0
      have hcnt0 : usedCount ({ hash := t.hash, slots := List.replicate n default, load := 0 }
          : Table) = 0 := by
        unfold usedCount usedPairs
        simp only
        rw [usedPairs_replicate]
        rfl
      have hlenfresh : ({ hash := t.hash, slots := List.replicate n default, load := 0 }
          : Table).slots.length = n := by
        simp
      rw [hcnt0] at hc
      rw [hlenfresh] at hlen hg
      refine ⟨hl, ?_, hlen, hg⟩
      have : (t.slots.filterMap slotPair).length = usedCount t := rfl
      omega
    have partSI : ∀ t k v reset t' b, run (fuel+1) (.setInner t k v reset) = some (t', b) →
        t.slots.length ≤ t'.slots.length ∧ usedCount t' ≤ usedCount t + 1 ∧
        (t.load = usedCount t → t'.load = usedCount t') ∧
        (usedCount t ≤ t.load → usedCount t' ≤ t'.load) ∧
        (GoodCap t.slots.length → GoodCap t'.slots.length) ∧
        (¬t.load > t.slots.length / 2 ∧ t'.load ≤ t.load + 1 ∧
            t'.slots.length = t.slots.length ∨
          t'.load ≤ usedCount t + 1 ∧ nextPrimeSize t.slots.length ≤ t'.slots.length) := by
      intro t k v reset t' b hr
      rw [run] at hr
      by_cases hload : t.load > t.reserved / 2
      · simp only [if_pos hload] at hr
        cases reset with
        | true => simp at hr
        | false =>
          simp only [Bool.false_eq_true, if_false] at hr
          cases hrh : run fuel (.rehash t (nextPrimeSize t.reserved)) with
          | none => rw [hrh] at hr; simp at hr
          | some p1 =>
            obtain ⟨q1, b1⟩ := p1
            rw [hrh] at hr
            simp only at hr
            obtain ⟨hl1, hc1, hn1, hg1⟩ := ihRH t (nextPrimeSize t.reserved) q1 b1 hrh
            simp only [Table.reserved] at hn1 hg1
            obtain ⟨hlen2, hc2, hl2, hc2l, hg2, hd2⟩ := ihSL q1 (t.hash k) k v t' b hr
            have hgrow : t.slots.length < nextPrimeSize t.slots.length :=
              (next_prime_size_spec t.slots.length).1
            refine ⟨by omega, by omega, fun _ => hl2 hl1, fun _ => hc2l (le_of_eq hl1.symm),
              ?_, ?_⟩
            · intro hg
              exact hg2 (hg1 (goodCap_next _ hg))
            · right
              rcases hd2 with ⟨ha, -⟩ | ⟨ha, -⟩
              · exact ⟨by omega, by omega⟩
              · exact ⟨by omega, by omega⟩
      · simp only [if_neg hload] at hr
        obtain ⟨hlen2, hc2, hl2, hc2l, hg2, hd2⟩ := ihSL t (t.hash k) k v t' b hr
        simp only [Table.reserved] at hload
        refine ⟨hlen2, hc2, hl2, hc2l, hg2, ?_⟩
        rcases hd2 with ⟨ha, hb⟩ | ⟨ha, hb⟩
        · exact Or.inl ⟨hload, ha, hb⟩
        · exact Or.inr ⟨ha, hb⟩
    have partRI : ∀ t rest t' b, run (fuel+1) (.reinsert t rest) = some (t', b) →
        t.load = usedCount t →
        t'.load = usedCount t' ∧
        usedCount t' ≤ usedCount t + (rest.filterMap slotPair).length ∧
        t.slots.length ≤ t'.slots.length ∧
        (GoodCap t.slots.length → GoodCap t'.slots.length) := by
      intro t rest t' b hr hload
      cases rest with
      | nil =>
        rw [run] at hr
        obtain ⟨h1, -⟩ := Prod.mk.injEq .. ▸ Option.some.injEq .. ▸ hr
        subst h1
        exact ⟨hload, by simp, le_refl _, id⟩
      | cons s rest' =>
        rw [run] at hr
        by_cases hf : s.flag = .used
        · simp only [if_pos hf] at hr
          cases hsi : run fuel (.setInner t s.key s.val true) with
          | none => rw [hsi] at hr; simp at hr
          | some p1 =>
            obtain ⟨q1, b1⟩ := p1
            rw [hsi] at hr
            simp only at hr
            obtain ⟨hlen1, hc1, hl1, -, hg1, -⟩ := ihSI t s.key s.val true q1 b1 hsi
            obtain ⟨hl2, hc2, hlen2, hg2⟩ := ihRI q1 rest' t' b hr (hl1 hload)
            have hcons : ((s :: rest').filterMap slotPair).length
                = (rest'.filterMap slotPair).length + 1 := by
              rw [List.filterMap_cons, slotPair_used s hf]
              rfl
            exact ⟨hl2, by omega, by omega, fun hg => hg2 (hg1 hg)⟩
        · simp only [if_neg hf] at hr
          obtain ⟨hl2, hc2, hlen2, hg2⟩ := ihRI t rest' t' b hr hload
          have hcons : ((s :: rest').filterMap slotPair).length
              = (rest'.filterMap slotPair).length := by
            rw [List.filterMap_cons, slotPair_not_used s hf]
          exact ⟨hl2, by omega, hlen2, hg2⟩
    exact ⟨partSL, partRH, partSI, partRI⟩

/-- Writing a pairless element can only lose pairs. -/
theorem filterMap_set_none_length {α β : Type} (f : α → Option β) :
    ∀ (l : List α) (i : Nat) (a : α), f a = none →
      ((l.set i a).filterMap f).length ≤ (l.filterMap f).length := by
  intro l
  induction l with
  | nil => intro i a ha; simp
  | cons hd tl ih =>
    intro i a ha
    cases i with
    | zero =>
      rw [List.set_cons_zero, List.filterMap_cons, List.filterMap_cons, ha]
      cases f hd <;> simp
    | succ i =>
      rw [List.set_cons_succ, List.filterMap_cons, List.filterMap_cons]
      cases f hd with
      | none => exact ih i a ha
      | some q =>
        simp only [List.length_cons]
        have := ih i a ha
        omega

/-- The table state invariant maintained by the load bound: the Occupied
count never exceeds `load`, `load` stays within one of the half
capacity, and the capacity is a reachable one. -/
def LoadInv (t : Table) : Prop :=
  usedCount t ≤ t.load ∧ t.load ≤ t.slots.length / 2 + 1 ∧ GoodCap t.slots.length

instance (t : Table) : Decidable (LoadInv t) := by
  unfold LoadInv
  infer_instance

/-- The fresh table after six inserts of distinct identity-hashed keys:
load 6, capacity 13. -/
def c4Pre : Table :=
  applyOps 40 (basic_hash_table_new (fun n => n))
    [.opSet 0 100, .opSet 1 101, .opSet 2 102, .opSet 3 103, .opSet 4 104, .opSet 5 105]

/-- The same table after a seventh successful insert. -/
def c4Post : Table :=
  match basic_hash_table_set 40 c4Pre 6 106 with
  | some p => p.1
  | none => c4Pre

/-- Counterexample to C4 as stated: the seventh `set` on a fresh table
succeeds without triggering growth (6 > 13/2 is false at entry) and
leaves `load = 7 > 13/2 = capacity/2`: immediately after a successful
`set` the claimed bound `load ≤ capacity/2` is violated. -/
theorem load_bound_counterexample :
    basic_hash_table_set 40 c4Pre 6 106 = some (c4Post, true) ∧
      c4Post.load = 7 ∧ c4Post.reserved = 13 ∧ ¬c4Post.load ≤ c4Post.reserved / 2 := by
  exact ⟨rfl, rfl, rfl, by decide⟩

/-- C4 (amended): from any state satisfying the real invariant (Occupied
count ≤ load, load ≤ capacity/2 + 1, reachable capacity), immediately
after any successful `set` or `remove` the table satisfies
`load ≤ capacity/2 + 1` — one more than the claimed `capacity/2`; growth
is triggered at the *next* `set` once `load > capacity/2`.  The invariant
itself is preserved. -/
theorem load_bound_after_ops (fuel : Nat) (t : Table) (hInv : LoadInv t) :
    (∀ k v t' b, basic_hash_table_set fuel t k v = some (t', b) →
      t'.load ≤ t'.slots.length / 2 + 1 ∧ LoadInv t') ∧
    (∀ k, (basic_hash_table_remove t k).table.load
        ≤ (basic_hash_table_remove t k).table.slots.length / 2 + 1 ∧
      LoadInv (basic_hash_table_remove t k).table) := by
  obtain ⟨hcl, hlb, hgc⟩ := hInv
  constructor
  · intro k v t' b hset
    obtain ⟨hlen, hcnt, -, hcle, hgood, hdisj⟩ :=
      (run_load fuel).2.2.1 t k v false t' b hset
    have hbound : t'.load ≤ t'.slots.length / 2 + 1 := by
      rcases hdisj with ⟨hnl, ha, hb⟩ | ⟨ha, hb⟩
      · rw [hb]
        omega
      · have hhalf := half_lt_next_half t.slots.length hgc
        have hmono := Nat.div_le_div_right (c := 2) hb
        omega
    exact ⟨hbound, hcle hcl, hbound, hgood hgc⟩
  · intro k
    unfold basic_hash_table_remove
    cases hg : basic_hash_table_get_inner t k with
    | none => exact ⟨hlb, hcl, hlb, hgc⟩
    | some idx =>
      have hlen : (t.slots.set idx { t.slots.getD idx default with flag := Flag.deleted }).length = t.slots.length := List.length_set ..
      have hcnt : usedCount { t with slots := t.slots.set idx { t.slots.getD idx default with flag := Flag.deleted } } ≤ usedCount t := by
        unfold usedCount usedPairs
        exact filterMap_set_none_length slotPair t.slots idx _ rfl
      refine ⟨?_, ?_, ?_, ?_⟩
      · simp only [hlen]
        exact hlb
      · exact le_trans hcnt hcl
      · simp only [hlen]
        exact hlb
      · simp only [hlen]
        exact hgc

/-- Witness for the amended C4 at concrete inputs: the seventh insert and
a removal, both from the six-entry table. -/
theorem load_bound_after_ops_witness :
    (c4Post.load ≤ c4Post.slots.length / 2 + 1 ∧ LoadInv c4Post) ∧
      ((basic_hash_table_remove c4Pre 3).table.load
          ≤ (basic_hash_table_remove c4Pre 3).table.slots.length / 2 + 1 ∧
        LoadInv (basic_hash_table_remove c4Pre 3).table) :=
  ⟨(load_bound_after_ops 40 c4Pre (by decide)).1 6 106 c4Post true rfl,
   (load_bound_after_ops 40 c4Pre (by decide)).2 3⟩

/-! ## Termination of `set` -/

/-- Fuel is monotone: a successful run stays successful, with the same
result, under more fuel. -/
theorem run_mono : ∀ fuel fuel' c p, run fuel c = some p → fuel ≤ fuel' →
    run fuel' c = some p := by
  intro fuel
  induction fuel with
  | zero => intro fuel' c p hr; simp [run] at hr
  | succ fuel ih =>
    intro fuel' c p hr hle
    obtain ⟨f', rfl⟩ : ∃ f', fuel' = f' + 1 := ⟨fuel' - 1, by omega⟩
    have hle' : fuel ≤ f' := by omega
    match c with
    | .rehash t newsize =>
      rw [run] at hr
      rw [run]
      exact ih f' _ p hr hle'
    | .reinsert t [] =>
      rw [run] at hr
      rw [run]
      exact hr
    | .reinsert t (s :: rest) =>
      rw [run] at hr
      rw [run]
      by_cases hf : s.flag = .used
      · simp only [if_pos hf] at hr ⊢
        cases hsi : run fuel (.setInner t s.key s.val true) with
        | none => rw [hsi] at hr; simp at hr
        | some q =>
          rw [hsi] at hr
          simp only at hr
          rw [ih f' _ q hsi hle']
          simp only
          exact ih f' _ p hr hle'
      · simp only [if_neg hf] at hr ⊢
        exact ih f' _ p hr hle'
    | .setInner t k v reset =>
      rw [run] at hr
      rw [run]
      by_cases hload : t.load > t.reserved / 2
      · simp only [if_pos hload] at hr ⊢
        cases reset with
        | true => simp at hr
        | false =>
          simp only [Bool.false_eq_true, if_false] at hr ⊢
          cases hrh : run fuel (.rehash t (nextPrimeSize t.reserved)) with
          | none => rw [hrh] at hr; simp at hr
          | some q =>
            rw [hrh] at hr
            simp only at hr
            rw [ih f' _ q hrh hle']
            simp only
            exact ih f' _ p hr hle'
      · simp only [if_neg hload] at hr ⊢
        exact ih f' _ p hr hle'
    | .setLoop t h k v =>
      rw [run] at hr
      rw [run]
      cases hsp : setProbe t.slots h k 0 t.reserved with
      | some r =>
        obtain ⟨idx, bb⟩ := r
        rw [hsp] at hr
        cases bb with
        | true => exact hr
        | false => exact hr
      | none =>
        rw [hsp] at hr
        simp only at hr ⊢
        cases hrh : run fuel (.rehash t (nextPrimeSize t.reserved)) with
        | none => rw [hrh] at hr; simp at hr
        | some q =>
          rw [hrh] at hr
          simp only at hr
          rw [ih f' _ q hrh hle']
          simp only
          exact ih f' _ p hr hle'

/-- A fully fallen-through `set` probe scan saw only non-matching Used
slots. -/
theorem setProbe_none_spec (slots : List Slot) (h k : Nat) (hcap : 0 < slots.length) :
    ∀ fuel i, setProbe slots h k i fuel = none →
      ∀ m, i ≤ m → m < i + fuel →
        (probeSlot slots h m).flag = .used ∧ (probeSlot slots h m).key ≠ k := by
  intro fuel
  induction fuel with
  | zero => intro i hp m him hm; omega
  | succ fuel ih =>
    intro i hp m him hm
    rw [setProbe, probeSlot_get slots h i hcap] at hp
    simp only at hp
    by_cases hed : (probeSlot slots h i).flag = .empty ∨ (probeSlot slots h i).flag = .deleted
    · rw [if_pos hed] at hp
      simp at hp
    · rw [if_neg hed] at hp
      by_cases hk : (probeSlot slots h i).key = k
      · rw [if_pos hk] at hp
        simp at hp
      · rw [if_neg hk] at hp
        rcases Nat.eq_or_lt_of_le him with heq | hlt
        · push_neg at hed
          exact heq ▸ ⟨flag_used_of_ne _ hed.1 hed.2, hk⟩
        · exact ih (i+1) hp m hlt (by omega)

/-- `countP` as a sum over positions. -/
theorem countP_eq_sum (p : Slot → Bool) :
    ∀ l : List Slot,
      l.countP p = ∑ i ∈ Finset.range l.length, if p (l.getD i default) then 1 else 0 := by
  intro l
  induction l with
  | nil => rfl
  | cons hd tl ih =>
    rw [List.countP_cons, List.length_cons, Finset.sum_range_succ']
    simp only [List.getD_cons_succ, List.getD_cons_zero]
    rw [ih]

/-- Pairwise distinct positions satisfying `p` bound `countP` from
below. -/
theorem countP_ge_of_inj (p : Slot → Bool) (l : List Slot) (f : Nat → Nat) (m : Nat)
    (hinj : ∀ a, a < m → ∀ b, b < m → f a = f b → a = b)
    (hlt : ∀ a, a < m → f a < l.length)
    (hp : ∀ a, a < m → p (l.getD (f a) default) = true) :
    m ≤ l.countP p := by
  classical
  have hcard : ((Finset.range m).image f).card = m := by
    rw [Finset.card_image_of_injOn]
    · exact Finset.card_range m
    · intro a ha b hb hab
      exact hinj a (Finset.mem_range.mp ha) b (Finset.mem_range.mp hb) hab
  have hsub : (Finset.range m).image f
      ⊆ (Finset.range l.length).filter (fun i => p (l.getD i default) = true) := by
    intro x hx
    obtain ⟨a, ha, rfl⟩ := Finset.mem_image.mp hx
    have ha' := Finset.mem_range.mp ha
    refine Finset.mem_filter.mpr ⟨Finset.mem_range.mpr (hlt a ha'), hp a ha'⟩
  have hle := Finset.card_le_card hsub
  rw [hcard] at hle
  refine le_trans hle ?_
  rw [countP_eq_sum]
  rw [Finset.card_filter]

/-- The first `Nat.sqrt (cap-1) + 1` quadratic probes hit pairwise
distinct slots. -/
theorem probeIdx_inj (h cap a b : Nat) (hab : a < b) (hb : b * b < cap) :
    probeIdx h cap a ≠ probeIdx h cap b := by
  intro he
  unfold probeIdx at he
  have hmod : (h + a * a) ≡ (h + b * b) [MOD cap] := he
  have hmod2 : a * a ≡ b * b [MOD cap] := Nat.ModEq.add_left_cancel rfl hmod
  have hlt : a * a < b * b := Nat.mul_self_lt_mul_self hab
  have hdvd : cap ∣ b * b - a * a := (Nat.modEq_iff_dvd' (le_of_lt hlt)).mp hmod2
  have hpos : 0 < b * b - a * a := by omega
  have := Nat.le_of_dvd hpos hdvd
  omega

/-- In a slot array whose Used count is at most `sqrt(cap - 1)`, a full
`set` probe scan always terminates at some slot: the first
`sqrt(cap-1) + 1` probes are pairwise distinct, so they cannot all be
non-matching Used slots. -/
theorem setProbe_total (slots : List Slot) (h k : Nat) (hcap : 0 < slots.length)
    (hcnt : slots.countP (fun s => s.flag == .used) ≤ Nat.sqrt (slots.length - 1)) :
    ∃ r, setProbe slots h k 0 slots.length = some r := by
  cases hsp : setProbe slots h k 0 slots.length with
  | some r => exact ⟨r, rfl⟩
  | none =>
    exfalso
    have hspec := setProbe_none_spec slots h k hcap slots.length 0 hsp
    set m := Nat.sqrt (slots.length - 1) + 1 with hm
    have hmlen : m ≤ slots.length := by
      have := Nat.sqrt_le_self (slots.length - 1)
      omega
    have hcount : m ≤ slots.countP (fun s => s.flag == .used) := by
      refine countP_ge_of_inj _ slots (fun a => probeIdx h slots.length a) m ?_ ?_ ?_
      · intro a ha b hb hab
        rcases Nat.lt_trichotomy a b with hlt | heq | hgt
        · exfalso
          refine probeIdx_inj h slots.length a b hlt ?_ hab
          have hble : b ≤ Nat.sqrt (slots.length - 1) := by omega
          have hsq : Nat.sqrt (slots.length - 1) * Nat.sqrt (slots.length - 1)
              ≤ slots.length - 1 := by
            have := Nat.sqrt_le' (slots.length - 1)
            simpa [pow_two] using this
          have hbb : b * b ≤ slots.length - 1 :=
            le_trans (Nat.mul_le_mul hble hble) hsq
          omega
        · exact heq
        · exfalso
          refine probeIdx_inj h slots.length b a hgt ?_ hab.symm
          have hale : a ≤ Nat.sqrt (slots.length - 1) := by omega
          have hsq : Nat.sqrt (slots.length - 1) * Nat.sqrt (slots.length - 1)
              ≤ slots.length - 1 := by
            have := Nat.sqrt_le' (slots.length - 1)
            simpa [pow_two] using this
          have haa : a * a ≤ slots.length - 1 :=
            le_trans (Nat.mul_le_mul hale hale) hsq
          omega
      · intro a ha
        exact Nat.mod_lt _ hcap
      · intro a ha
        obtain ⟨hu, -⟩ := hspec a (Nat.zero_le a) (by omega)
        unfold probeSlot at hu
        rw [List.getD_eq_getElem?_getD] at hu
        simp [hu]
    omega

/-- The Occupied count as a flag count. -/
theorem usedCount_eq_countP (l : List Slot) :
    (l.filterMap slotPair).length = l.countP (fun s => s.flag == .used) := by
  induction l with
  | nil => rfl
  | cons hd tl ih =>
    rw [List.filterMap_cons, List.countP_cons]
    by_cases hu : hd.flag = .used
    · rw [slotPair_used hd hu]
      simp [hu, ih]
    · rw [slotPair_not_used hd hu]
      simp [hu, ih]

/-- State bookkeeping for a direct fresh placement. -/
theorem installAt_props (t : Table) (h k v idx : Nat)
    (hsp : setProbe t.slots h k 0 t.reserved = some (idx, true)) :
    (t.load = usedCount t → (installAt t idx k v).load = usedCount (installAt t idx k v)) ∧
      usedCount (installAt t idx k v) = usedCount t + 1 ∧
      (installAt t idx k v).slots.length = t.slots.length := by
  have hcnt := usedCount_installAt t h k v idx hsp
  refine ⟨?_, hcnt, ?_⟩
  · intro hl
    rw [hcnt]
    have : (installAt t idx k v).load = t.load + 1 := rfl
    omega
  · unfold installAt
    simp [List.length_set]

/-- State bookkeeping for a direct value overwrite. -/
theorem updateAt_props (t : Table) (h k v idx : Nat)
    (hsp : setProbe t.slots h k 0 t.reserved = some (idx, false)) :
    (t.load = usedCount t → (updateAt t idx v).load = usedCount (updateAt t idx v)) ∧
      usedCount (updateAt t idx v) = usedCount t ∧
      (updateAt t idx v).slots.length = t.slots.length := by
  have hcnt := usedCount_updateAt t h k v idx hsp
  refine ⟨?_, hcnt, ?_⟩
  · intro hl
    rw [hcnt]
    have : (updateAt t idx v).load = t.load := rfl
    omega
  · unfold updateAt
    simp [List.length_set]

/-- Master termination bound for the `set`/`rehash` machinery.  For a
fixed Occupied-count bound `u`, strong induction on the distance
`(u+1)*(u+1) + 1 - capacity`: once the capacity passes `(u+1)^2` a probe
pass must terminate (its first `sqrt(cap-1)+1` probes are pairwise
distinct and cannot all be non-matching Used slots), and every retry
strictly grows the capacity toward that threshold.  The three parts
cover the probe-and-write loop, reinsertion of a slot list, and a full
rehash. -/
theorem run_terminates (u : Nat) : ∀ m,
    (∀ t h k v, (u + 1) * (u + 1) + 1 - t.slots.length ≤ m →
      usedCount t ≤ u → 2 * usedCount t ≤ t.slots.length →
      ∃ fuel t' b, run fuel (.setLoop t h k v) = some (t', b) ∧
        (t.load = usedCount t → t'.load = usedCount t') ∧
        usedCount t' ≤ usedCount t + 1 ∧
        t.slots.length ≤ t'.slots.length) ∧
    (∀ rest t, (u + 1) * (u + 1) + 1 - t.slots.length ≤ m →
      t.load = usedCount t →
      usedCount t + (rest.filterMap slotPair).length ≤ u →
      2 * (usedCount t + (rest.filterMap slotPair).length) ≤ t.slots.length →
      ∃ fuel t' b, run fuel (.reinsert t rest) = some (t', b) ∧
        t'.load = usedCount t' ∧
        usedCount t' ≤ usedCount t + (rest.filterMap slotPair).length ∧
        t.slots.length ≤ t'.slots.length) ∧
    (∀ t n, (u + 1) * (u + 1) + 1 - n ≤ m →
      usedCount t ≤ u → 2 * usedCount t ≤ n →
      ∃ fuel t' b, run fuel (.rehash t n) = some (t', b) ∧
        t'.load = usedCount t' ∧ usedCount t' ≤ usedCount t ∧
        n ≤ t'.slots.length) := by
  intro m
  induction m using Nat.strong_induction_on with
  | _ m IH =>
    have partSL : ∀ t h k v, (u + 1) * (u + 1) + 1 - t.slots.length ≤ m →
        usedCount t ≤ u → 2 * usedCount t ≤ t.slots.length →
        ∃ fuel t' b, run fuel (.setLoop t h k v) = some (t', b) ∧
          (t.load = usedCount t → t'.load = usedCount t') ∧
          usedCount t' ≤ usedCount t + 1 ∧
          t.slots.length ≤ t'.slots.length := by
      intro t h k v hmsr hu h2c
      cases hsp : setProbe t.slots h k 0 t.reserved with
      | some r =>
        obtain ⟨idx, bb⟩ := r
        cases bb with
        | true =>
          obtain ⟨hld, hcnt, hlen⟩ := installAt_props t h k v idx hsp
          refine ⟨0 + 1, installAt t idx k v, true, ?_, hld, by omega, by omega⟩
          rw [run, hsp]
        | false =>
          obtain ⟨hld, hcnt, hlen⟩ := updateAt_props t h k v idx hsp
          refine ⟨0 + 1, updateAt t idx v, false, ?_, hld, by omega, by omega⟩
          rw [run, hsp]
      | none =>
        have hsmall : t.slots.length ≤ (u + 1) * (u + 1) := by
          by_contra hbig
          push_neg at hbig
          have hcap : 0 < t.slots.length := by omega
          have hle : u + 1 ≤ Nat.sqrt (t.slots.length - 1) :=
            Nat.le_sqrt.mpr (by omega)
          have hcnt : t.slots.countP (fun s => s.flag == .used)
              ≤ Nat.sqrt (t.slots.length - 1) := by
            have he := usedCount_eq_countP t.slots
            have hut : usedCount t = (t.slots.filterMap slotPair).length := rfl
            omega
          obtain ⟨r, hr⟩ := setProbe_total t.slots h k hcap hcnt
          have hr' : setProbe t.slots h k 0 t.reserved = some r := hr
          rw [hsp] at hr'
          exact Option.noConfusion hr'
        have hm1 : 1 ≤ m := by omega
        have hres : t.reserved = t.slots.length := rfl
        have hnext := (next_prime_size_spec t.reserved).1
        have hRH := (IH (m - 1) (by omega)).2.2 t (nextPrimeSize t.reserved)
          (by omega) hu (by omega)
        obtain ⟨frh, t2, b2, hr2, hld2, hcnt2, hlen2⟩ := hRH
        have hSL2 := (IH (m - 1) (by omega)).1 t2 h k v (by omega) (by omega) (by omega)
        obtain ⟨fsl, t', b', hr3, hld3, hcnt3, hlen3⟩ := hSL2
        refine ⟨max frh fsl + 1, t', b', ?_, fun _ => hld3 hld2, by omega, by omega⟩
        rw [run, hsp]
        rw [run_mono frh (max frh fsl) _ _ hr2 (le_max_left _ _)]
        exact run_mono fsl (max frh fsl) _ _ hr3 (le_max_right _ _)
    have partRI : ∀ rest t, (u + 1) * (u + 1) + 1 - t.slots.length ≤ m →
        t.load = usedCount t →
        usedCount t + (rest.filterMap slotPair).length ≤ u →
        2 * (usedCount t + (rest.filterMap slotPair).length) ≤ t.slots.length →
        ∃ fuel t' b, run fuel (.reinsert t rest) = some (t', b) ∧
          t'.load = usedCount t' ∧
          usedCount t' ≤ usedCount t + (rest.filterMap slotPair).length ∧
          t.slots.length ≤ t'.slots.length := by
      intro rest
      induction rest with
      | nil =>
        intro t hmsr hload hsum h2sum
        exact ⟨0 + 1, t, true, by rw [run], hload, by simp, le_refl _⟩
      | cons s rest' ihrest =>
        intro t hmsr hload hsum h2sum
        by_cases hf : s.flag = .used
        · have hfm : ((s :: rest').filterMap slotPair).length
              = (rest'.filterMap slotPair).length + 1 := by
            rw [List.filterMap_cons, slotPair_used s hf]
            simp
          rw [hfm] at hsum h2sum
          have hSL := partSL t (t.hash s.key) s.key s.val hmsr (by omega) (by omega)
          obtain ⟨fsl, t1, b1, hr1, hld1, hcnt1, hlen1⟩ := hSL
          have hld1' := hld1 hload
          have hth : ¬ t.load > t.reserved / 2 := by
            have hres : t.reserved = t.slots.length := rfl
            omega
          have hr1' : run (fsl + 1) (.setInner t s.key s.val true) = some (t1, b1) := by
            rw [run, if_neg hth]
            exact hr1
          have hrec := ihrest t1 (by omega) hld1' (by omega) (by omega)
          obtain ⟨fr, t', b', hr2, hld2, hcnt2, hlen2⟩ := hrec
          refine ⟨max (fsl + 1) fr + 1, t', b', ?_, hld2, by rw [hfm]; omega, by omega⟩
          rw [run, if_pos hf]
          rw [run_mono (fsl + 1) (max (fsl + 1) fr) _ _ hr1' (le_max_left _ _)]
          exact run_mono fr (max (fsl + 1) fr) _ _ hr2 (le_max_right _ _)
        · have hfm : ((s :: rest').filterMap slotPair).length
              = (rest'.filterMap slotPair).length := by
            rw [List.filterMap_cons, slotPair_not_used s hf]
          rw [hfm] at hsum h2sum
          have hrec := ihrest t hmsr hload hsum h2sum
          obtain ⟨fr, t', b', hr2, hld2, hcnt2, hlen2⟩ := hrec
          refine ⟨fr + 1, t', b', ?_, hld2, by rw [hfm]; omega, hlen2⟩
          rw [run, if_neg hf]
          exact hr2
    have partRH : ∀ t n, (u + 1) * (u + 1) + 1 - n ≤ m →
        usedCount t ≤ u → 2 * usedCount t ≤ n →
        ∃ fuel t' b, run fuel (.rehash t n) = some (t', b) ∧
          t'.load = usedCount t' ∧ usedCount t' ≤ usedCount t ∧
          n ≤ t'.slots.length := by
      intro t n hmsr hu h2n
      have hfrUC : usedCount { hash := t.hash, slots := List.replicate n default, load := 0 } = 0 := by
        unfold usedCount usedPairs
        rw [usedPairs_replicate]
        rfl
      have hRI := partRI t.slots { hash := t.hash, slots := List.replicate n default, load := 0 }
        (by simp only [List.length_replicate]; exact hmsr)
        (by rw [hfrUC])
        (by rw [hfrUC]; simpa using hu)
        (by rw [hfrUC]; simp only [List.length_replicate]; simpa using h2n)
      obtain ⟨fr, t', b', hr2, hld2, hcnt2, hlen2⟩ := hRI
      rw [hfrUC] at hcnt2
      refine ⟨fr + 1, t', b', ?_, hld2, by simpa using hcnt2, by simpa using hlen2⟩
      rw [run]
      exact hr2
    exact ⟨partSL, partRI, partRH⟩

/-- C5: `set` terminates on every table state satisfying the real load
invariant (Occupied count ≤ load ≤ capacity/2 + 1 over a reachable
capacity) and every input: some finite fuel makes the fuel-indexed `set`
succeed, so the defensive retry loop that re-rehashes when a full probe
scan finds no terminating slot runs only finitely many times.  Moreover
every growth step strictly increases the capacity, and a completed
rehash to a strictly larger capacity re-establishes `capacity > load`. -/
theorem set_terminates (t : Table) (k v : Nat) (hInv : LoadInv t) :
    (∃ fuel t' b, basic_hash_table_set fuel t k v = some (t', b)) ∧
      (∀ c, c < nextPrimeSize c) ∧
      (∀ fuel t0 n t2 b2, run fuel (.rehash t0 n) = some (t2, b2) →
        t0.slots.length < n → t2.load < t2.slots.length) := by
  obtain ⟨hcl, hlb, hgc⟩ := hInv
  refine ⟨?_, fun c => (next_prime_size_spec c).1, ?_⟩
  · have hM := run_terminates (usedCount t)
      ((usedCount t + 1) * (usedCount t + 1) + 1)
    have hres : t.reserved = t.slots.length := rfl
    by_cases hth : t.load > t.reserved / 2
    · have hnext := (next_prime_size_spec t.reserved).1
      have hhalf := half_lt_next_half t.reserved hgc
      have hRH := hM.2.2 t (nextPrimeSize t.reserved) (by omega) (le_refl _) (by omega)
      obtain ⟨frh, t2, b2, hr2, hld2, hcnt2, hlen2⟩ := hRH
      have hSL := hM.1 t2 (t.hash k) k v (by omega) (by omega) (by omega)
      obtain ⟨fsl, t', b', hr3, hld3, hcnt3, hlen3⟩ := hSL
      refine ⟨max frh fsl + 1, t', b', ?_⟩
      unfold basic_hash_table_set basic_hash_table_set_inner
      have hff : ¬ (false = true) := by decide
      rw [run, if_pos hth, if_neg hff]
      rw [run_mono frh (max frh fsl) _ _ hr2 (le_max_left _ _)]
      exact run_mono fsl (max frh fsl) _ _ hr3 (le_max_right _ _)
    · have hSL := hM.1 t (t.hash k) k v (by omega) (le_refl _) (by omega)
      obtain ⟨fsl, t', b', hr3, hld3, hcnt3, hlen3⟩ := hSL
      refine ⟨fsl + 1, t', b', ?_⟩
      unfold basic_hash_table_set basic_hash_table_set_inner
      rw [run, if_neg hth]
      exact hr3
  · intro fuel t0 n t2 b2 hr hlt
    obtain ⟨hld, hcnt, hlen, -⟩ := (run_load fuel).2.1 t0 n t2 b2 hr
    have hUC : usedCount t0 ≤ t0.slots.length := List.length_filterMap_le slotPair t0.slots
    omega

/-- Witness for C5 at a concrete input. -/
theorem set_terminates_witness :
    LoadInv (basic_hash_table_new (fun n => n)) ∧
      ((∃ fuel t' b, basic_hash_table_set fuel (basic_hash_table_new (fun n => n)) 3 33
          = some (t', b)) ∧
        (∀ c, c < nextPrimeSize c) ∧
        (∀ fuel t0 n t2 b2, run fuel (.rehash t0 n) = some (t2, b2) →
          t0.slots.length < n → t2.load < t2.slots.length)) :=
  ⟨by decide, set_terminates (basic_hash_table_new (fun n => n)) 3 33 (by decide)⟩
